import Mathlib

/-!
json2raw: symbol normalisation, type classification and declaration emission.

A shallow embedding of `src/json2raw/types.go`.

Go strings that reach this code come out of `encoding/json`, hence are valid UTF-8; they
are modelled as Lean `String`s (sequences of code points, Go "runes").  Every key of the
replacer table and every literal passed to `strings.Replace` is ASCII, so matching on
code points and matching on bytes agree on such text.

The Go standard library is not part of the repository.  Its ASCII behaviour is written
out below exactly as the library implements it; the Unicode tables consulted for runes
above `0x7F` are a parameter (`UnicodeTables`).
-/

set_option autoImplicit false

namespace Json2raw

/-! ## Go standard library: `unicode` and `strings` -/

/-- The tables of package `unicode` for runes above `unicode.MaxASCII`. -/
structure UnicodeTables where
  /-- Result of `unicode.To(unicode.TitleCase, r)` -/
  toTitle : Char → Char
  /-- Result of `unicode.IsLetter(r)` -/
  isLetter : Char → Bool
  /-- Result of `unicode.IsDigit(r)` -/
  isDigit : Char → Bool
  /-- Result of `unicode.IsSpace(r)` -/
  isSpace : Char → Bool

/-- A table set that treats every rune above ASCII as a caseless symbol; used to run the
definitions on ASCII text, where the tables are never consulted. -/
def asciiTables : UnicodeTables :=
  { toTitle := fun r => r, isLetter := fun _ => false,
    isDigit := fun _ => false, isSpace := fun _ => false }

/-- Go `unicode.ToTitle`: ASCII lower-case letters lose `'a' - 'A'`, other ASCII runes are
unchanged, the rest goes through the title-case table. -/
def toTitle (U : UnicodeTables) (r : Char) : Char :=
  if r.toNat ≤ 0x7F then
    if 97 ≤ r.toNat ∧ r.toNat ≤ 122 then Char.ofNat (r.toNat - 32) else r
  else U.toTitle r

/-- Go `strings.isSeparator`: ASCII alphanumerics and underscore are not separators, every
other ASCII rune is; above ASCII, letters and digits are not, and spaces are. -/
def isSeparator (U : UnicodeTables) (r : Char) : Bool :=
  if r.toNat ≤ 0x7F then
    if 48 ≤ r.toNat ∧ r.toNat ≤ 57 then false
    else if 97 ≤ r.toNat ∧ r.toNat ≤ 122 then false
    else if 65 ≤ r.toNat ∧ r.toNat ≤ 90 then false
    else if r = '_' then false
    else true
  else if U.isLetter r || U.isDigit r then false
  else U.isSpace r

/-- The closure of Go `strings.Title` run by `strings.Map`: `prev` is the previous rune of
the input (initially a space); a rune that follows a separator is title-cased. -/
def titleLoop (U : UnicodeTables) : Char → List Char → List Char
  | _, [] => []
  | prev, r :: rest =>
      (if isSeparator U prev then toTitle U r else r) :: titleLoop U r rest

/-- Go `strings.Title` on the runes of a string. -/
def Title (U : UnicodeTables) (s : List Char) : List Char :=
  titleLoop U ' ' s

/-- Lookup of the generic `strings.Replacer`: among the old strings that are a prefix of
the remaining input, the one given first in the argument list wins. -/
def replacerLookup (oldnew : List (List Char × List Char)) (s : List Char) :
    Option (List Char × List Char) :=
  oldnew.find? (fun p => p.1.isPrefixOf s)

/-- The scan of the generic `strings.Replacer` (all old strings non-empty).  At a position
where an old string matches, the new string is written and the scan moves past the match
(`i += keylen`, here: `skip` further runes are passed over); elsewhere the rune is copied
and the scan moves on by one. -/
def replacerLoop (oldnew : List (List Char × List Char)) : Nat → List Char → List Char
  | _, [] => []
  | skip + 1, _ :: rest => replacerLoop oldnew skip rest
  | 0, c :: rest =>
      match replacerLookup oldnew (c :: rest) with
      | some (old, new) => new ++ replacerLoop oldnew (old.length - 1) rest
      | none => c :: replacerLoop oldnew 0 rest

/-- Go `(*strings.Replacer).Replace` for a table of non-empty old strings. -/
def replacerReplace (oldnew : List (List Char × List Char)) (s : List Char) : List Char :=
  replacerLoop oldnew 0 s

/-- The loop of Go `strings.Replace` for a non-empty `old`: `limit` is the number of
replacements still allowed (`none`: no limit, the case `n < 0`); matches are taken left to
right without overlap. -/
def replaceLoop (old new : List Char) : Option Nat → Nat → List Char → List Char
  | _, _, [] => []
  | limit, skip + 1, _ :: rest => replaceLoop old new limit skip rest
  | some 0, 0, c :: rest => c :: rest
  | limit, 0, c :: rest =>
      if old.isPrefixOf (c :: rest) then
        new ++ replaceLoop old new (limit.map (fun k => k - 1)) (old.length - 1) rest
      else c :: replaceLoop old new limit 0 rest

/-- Go `strings.Replace(s, old, new, n)` for a non-empty `old` (both call sites of the
source pass one): the first `n` non-overlapping instances of `old` are replaced, all of
them when `n < 0`. -/
def stringsReplace (s old new : List Char) (n : Int) : List Char :=
  if old = new ∨ n = 0 then s
  else replaceLoop old new (if n < 0 then none else some n.toNat) 0 s

/-! ## `types.go`: the normaliser -/

/-- The argument list of `strings.NewReplacer` in `var replacer`, as old/new pairs in
argument order.  Code 96 is the backtick, 34 the double quote, 9 the tab. -/
def replacer : List (List Char × List Char) :=
  [ ([Char.ofNat 96], [' ']),
    ([Char.ofNat 34], [' ']),
    (['.'], [' ']),
    (['_'], [' ']),
    (['-'], [' ']),
    ([' '], [' ']),
    ([Char.ofNat 9], [' ']),
    (['('], [' ']),
    ([')'], [' ']),
    (['u', 'r', 'l'], ['U', 'R', 'L']),
    (['U', 'r', 'l'], ['U', 'R', 'L']) ]

/-- The body of `func goSym(name string) string` on runes. -/
def goSymRunes (U : UnicodeTables) (name : List Char) : List Char :=
  let name := replacerReplace replacer name
  let name := Title U name
  let name := stringsReplace name [' '] [] (-1)
  name

/-- Source `func goSym(name string) string`. -/
def goSym (U : UnicodeTables) (name : String) : String :=
  String.mk (goSymRunes U name.data)

/-! ## `types.go`: the schema model -/

/-- The values of `reflect.Kind` that matter to `Base.Type`. -/
inductive Kind where
  | Bool
  | Float64
  | Array
  | Map
  | Slice
  | String
  deriving DecidableEq, Repr

/-- The dynamic values `encoding/json` stores in a field of type `interface{}`: a JSON
string becomes a Go `string`, a number a `float64` (kept here as its literal text), a
boolean a `bool`, an array a `[]interface{}` and an object a `map[string]interface{}`. -/
inductive RawValue where
  | string (s : String)
  | float64 (literal : String)
  | bool (b : Bool)
  | slice (elems : List RawValue)
  | map (fields : List (String × RawValue))

/-- Go `reflect.TypeOf(v).Kind()`.  A JSON array is a slice: no decoded value has kind
`reflect.Array`, which is the kind of the fixed-length types `[n]T`. -/
def RawValue.kind : RawValue → Kind
  | .string _ => Kind.String
  | .float64 _ => Kind.Float64
  | .bool _ => Kind.Bool
  | .slice _ => Kind.Slice
  | .map _ => Kind.Map

/-- Go type assertion `v.(string)`; `none` is the run-time panic of a failed assertion. -/
def RawValue.assertString : RawValue → Option String
  | .string s => some s
  | _ => none

/-- Go type assertion `v.([]string)`; `none` is the run-time panic of a failed assertion.
The dynamic type of a decoded array is `[]interface{}`, never `[]string`. -/
def RawValue.assertStringSlice : RawValue → Option (List String)
  | _ => none

/-- The anonymous struct type of `Base.Process`. -/
structure Process where
  Main : Bool := false
  Renderer : Bool := false

/-- Source `type Base struct`.  `RawType` is the `interface{}` field: `none` is the nil
interface (the key is absent, or null). -/
structure Base where
  Name : String := ""
  RawType : Option RawValue := none
  Description : String := ""
  Platforms : List String := []
  Process : Process := {}
  Required : Bool := false
  Version : String := ""
  RepoURL : String := ""
  WebsiteURL : String := ""
  Slug : String := ""

/-- Source `func (b *Base) Type() string`; `none` is a run-time panic.  The indexing
`[0]` panics on an empty slice. -/
def Base.Type_ (b : Base) : Option String :=
  match b.RawType with
  | none => some ""
  | some v =>
      if v.kind = Kind.String then v.assertString
      else if v.kind = Kind.Array then
        v.assertStringSlice.bind (fun xs => xs.head?)
      else some ""

/-- Source `func (b *Base) isModule() bool`. -/
def Base.isModule (b : Base) : Option Bool := do
  return (← b.Type_) == "Module"

/-- Source `func (b *Base) isClass() bool`. -/
def Base.isClass (b : Base) : Option Bool := do
  return (← b.Type_) == "Class"

/-- Source `func (b *Base) isStructure() bool`. -/
def Base.isStructure (b : Base) : Option Bool := do
  return (← b.Type_) == "Structure"

/-- Source `func (b *Base) isObject() bool`. -/
def Base.isObject (b : Base) : Option Bool := do
  return (← b.Type_) == "Object"

/-- Source `func (b *Base) isFunction() bool`. -/
def Base.isFunction (b : Base) : Option Bool := do
  return (← b.Type_) == "Function"

/-- Source `func (b *Base) isBasic() bool`: the negation of a short-circuit disjunction,
evaluated left to right in the order Module, Class, Structure, Function, Object. -/
def Base.isBasic (b : Base) : Option Bool := do
  if ← b.isModule then return false
  if ← b.isClass then return false
  if ← b.isStructure then return false
  if ← b.isFunction then return false
  if ← b.isObject then return false
  return true

/-- Source `func (b *Base) goSym() string`. -/
def Base.goSym (U : UnicodeTables) (b : Base) : Option String := do
  let name := Json2raw.goSym U b.Name
  if ← b.isModule then return name ++ "Module"
  return name

/-- Source `func basicType(typ string) string`. -/
def basicType (typ : String) : String :=
  if typ = "" ∨ typ = "String" then "string"
  else if typ = "Integer" ∨ typ = "INTEGER" then "int64"
  else if typ = "Number" ∨ typ = "NUMBER" ∨ typ = "Double" ∨ typ = "DOUBLE"
      ∨ typ = "Float" ∨ typ = "FLOAT" then "float64"
  else if typ = "Boolean" ∨ typ = "BOOLEAN" then "bool"
  else "*js.Object"

/-- Source `type PossibleValue struct`; the embedded `*Base` is present. -/
structure PossibleValue extends Base where
  Value : String := ""

/-- Source `type Property struct`; the embedded `*Base` is present.  `PossibleValues` is
`none` for a nil slice. -/
inductive Property where
  | mk (toBase : Base) (Properties : List Property) (Parameters : List Property)
      (PossibleValues : Option (List PossibleValue))

/-- The embedded `*Base` of a Property. -/
def Property.toBase : Property → Base
  | .mk b _ _ _ => b

/-- Field `Properties` of a Property. -/
def Property.Properties : Property → List Property
  | .mk _ ps _ _ => ps

/-- Field `Parameters` of a Property. -/
def Property.Parameters : Property → List Property
  | .mk _ _ qs _ => qs

/-- Field `PossibleValues` of a Property. -/
def Property.PossibleValues : Property → Option (List PossibleValue)
  | .mk _ _ _ vs => vs

/-- The assignment `p.Name = name`, which writes through the embedded `*Base`. -/
def Property.setName : Property → String → Property
  | .mk b ps qs vs, name => .mk { b with Name := name } ps qs vs

/-- A declaration the registry holds back until `declNewTypes`: a nested composite type or
an enumerated constant set, under the name the registry gave it. -/
inductive Pending where
  | type (name : String) (p : Property) (parent : Option Base)
  | const (name : String) (p : Property) (parent : Option Base)

/-- The generated name of a pending declaration. -/
def Pending.name : Pending → String
  | .type n _ _ => n
  | .const n _ _ => n

/-- Modelled from the spec: the declaration of `type Context` is missing from the
sources.  The code here uses it as an `io.Writer` and reads its field `base`, the Base of
the Block being emitted; `out` is the text written to the sink so far and `pending` the
declarations registered so far, in registration order. -/
structure Context where
  base : Base
  out : String := ""
  pending : List Pending := []

/-- A call `fmt.Fprintf(w, ...)` whose formatted text is `text`: the text is written to
the sink. -/
def Context.Fprintf (w : Context) (text : String) : Context :=
  { w with out := w.out ++ text }

/-- The names the registry has given out so far. -/
def Context.names (w : Context) : List String :=
  w.pending.map Pending.name

/-- The names the Normalizer produces for a nested type and for a constant set, before
the registry makes them unique; the sources and the specification leave their derivation
open, so it is a parameter. -/
structure NameScheme where
  typeName : Property → Option Base → String
  constName : Property → Option Base → String

/-- The decimal digits of an ordinal, most significant first. -/
def ordinalText (k : Nat) : String :=
  String.mk ((Nat.digits 10 k).reverse.map (fun d => Char.ofNat (48 + d)))

/-- The `k`-th spelling of a candidate name: the candidate itself, then the candidate
with the ordinals 1, 2, ... appended. -/
def ordinalName (cand : String) (k : Nat) : String :=
  if k = 0 then cand else cand ++ ordinalText k

/-- Modelled from the spec: the registry's collision policy is missing from the sources.
A name that is already registered is disambiguated deterministically by appending an
ordinal: the first spelling of the candidate that no registered declaration bears. -/
def freshName (names : List String) (cand : String) : String :=
  ordinalName cand
    (((List.range (names.length + 1)).find?
      (fun k => !names.contains (ordinalName cand k))).getD 0)

/-- Modelled from the spec: `func (c *Context) newType(p *Property, parent *Base) string`
is missing from the sources.  It allocates a unique type name for the nested Property,
registers a pending full declaration for it and returns the name. -/
def Context.newType (N : NameScheme) (w : Context) (p : Property) (parent : Option Base) :
    String × Context :=
  let name := freshName w.names (N.typeName p parent)
  (name, { w with pending := w.pending ++ [Pending.type name p parent] })

/-- Modelled from the spec: `func (c *Context) newConst(p *Property, parent *Base) string`
is missing from the sources.  It allocates a unique type name for the enumerated constant
set, registers a pending declaration enumerating its PossibleValues and returns the
name. -/
def Context.newConst (N : NameScheme) (w : Context) (p : Property) (parent : Option Base) :
    String × Context :=
  let name := freshName w.names (N.constName p parent)
  (name, { w with pending := w.pending ++ [Pending.const name p parent] })

/-- Source `func (b *Base) decl(w *Context, parent *Base)`, format `"%s %s"`. -/
def Base.decl (U : UnicodeTables) (b : Base) (w : Context) (_parent : Option Base) :
    Option Context := do
  let sym ← b.goSym U
  let typ ← b.Type_
  return w.Fprintf (sym ++ " " ++ basicType typ)

/-- The double quote as a string. -/
def dquote : String := String.singleton (Char.ofNat 34)

/-- The backtick as a string. -/
def backtick : String := String.singleton (Char.ofNat 96)

/-- Source `func (b *Base) annotate(w *Context, parent *Base)`: nothing is written for a
nil parent or a Function parent, otherwise the format is a space, the tag `js:"%s"`
between backticks, and a space, with the argument `b.Name`. -/
def Base.annotate (b : Base) (w : Context) (parent : Option Base) : Option Context :=
  match parent with
  | none => some w
  | some par => do
      if ← par.isFunction then return w
      return w.Fprintf (" " ++ backtick ++ "js:" ++ dquote ++ b.Name ++ dquote ++ backtick
        ++ " ")

/-- Source `func (p *Property) decl(w *Context, parent *Base)`.  The Property is passed by
pointer and its name may be assigned, so the Property as it is after the call is returned
with the Context. -/
def Property.decl (U : UnicodeTables) (N : NameScheme) (p : Property) (w : Context)
    (parent : Option Base) : Option (Property × Context) := do
  let p := if p.toBase.Name = "" then p.setName "obj" else p
  if p.PossibleValues.isSome then
    let (tname, w) := w.newConst N p parent
    let sym ← p.toBase.goSym U
    return (p, w.Fprintf (sym ++ " " ++ tname))
  if ← p.toBase.isBasic then
    let w ← p.toBase.decl U w parent
    return (p, w)
  let (tname, w) := w.newType N p parent
  let sym ← p.toBase.goSym U
  return (p, w.Fprintf (sym ++ " " ++ tname))

/-- Source `type Event struct`; the embedded `*Base` is present. -/
structure Event extends Base where
  Return : List Property := []

/-- Source `func (e Event) decl(w *Context, p *Base)`: the format is
`Evt%s%s = "%s"` with the arguments `strings.Replace(w.base.goSym(), "Module", "", 1)`,
`e.goSym()` and `e.Name`. -/
def Event.decl (U : UnicodeTables) (e : Event) (w : Context) (_p : Option Base) :
    Option Context := do
  let blockSym ← w.base.goSym U
  let blockName := String.mk (stringsReplace blockSym.data "Module".data [] 1)
  let eventSym ← e.toBase.goSym U
  return w.Fprintf ("Evt" ++ blockName ++ eventSym ++ " = " ++ dquote ++ e.Name ++ dquote)

/-- Source `type Method struct`; the embedded `*Base` is present, `Return` is `none` for a
nil pointer. -/
structure Method extends Base where
  Signature : String := ""
  Parameters : List Property := []
  Return : Option Property := none

/-- The loop `for _, p := range m.Parameters` of `Method.decl`: each parameter is declared
with the method's Base as parent and followed by a comma. -/
def Method.declParameters (U : UnicodeTables) (N : NameScheme) (parent : Base) :
    List Property → Context → Option (List Property × Context)
  | [], w => some ([], w)
  | p :: rest, w => do
      let (p, w) ← p.decl U N w (some parent)
      let w := w.Fprintf ","
      let (rest, w) ← Method.declParameters U N parent rest w
      return (p :: rest, w)

/-- Source `func (m *Method) decl(w *Context, parent *Base)`.  The Method as it is after
the call (its parameters and return are passed on by pointer) is returned with the
Context. -/
def Method.decl (U : UnicodeTables) (N : NameScheme) (m : Method) (w : Context)
    (_parent : Option Base) : Option (Method × Context) := do
  let sym ← m.toBase.goSym U
  let w := w.Fprintf (sym ++ " func(")
  let (params, w) ← Method.declParameters U N m.toBase m.Parameters w
  let w := w.Fprintf ")"
  match m.Return with
  | some r =>
      let w := w.Fprintf "("
      let (r, w) ← r.decl U N w (some m.toBase)
      let w := w.Fprintf ")"
      return ({ m with Parameters := params, Return := some r }, w)
  | none => return ({ m with Parameters := params }, w)

/-- Source `type Block struct`; the embedded `*Base` is present, `ConstructorMethod` is
`none` for a nil pointer. -/
structure Block extends Base where
  Events : List Event := []
  Properties : List Property := []
  Methods : List Method := []
  InstanceName : String := ""
  InstanceEvents : List Event := []
  InstanceProperties : List Property := []
  InstanceMethods : List Method := []
  ConstructorMethod : Option Method := none
  StaticMethods : List Method := []

/-- The helper `declSlice(slice, w, parent)` is missing from the sources; the emitters take
it as a parameter, one function for each element type it is called with. -/
structure DeclSlice where
  events : List Event → Context → Option Base → Option Context
  properties : List Property → Context → Option Base → Option Context
  methods : List Method → Context → Option Base → Option Context

/-- Source `func (b *Block) declOther(w *Context)`. -/
def Block.declOther (U : UnicodeTables) (D : DeclSlice) (b : Block) (w : Context) :
    Option Context := do
  let sym ← b.toBase.goSym U
  let w := w.Fprintf ("\ntype " ++ sym ++ " struct \x7b\n\t")
  let w := w.Fprintf "*js.Object\n\t"
  let w ← D.properties b.Properties w (some b.toBase)
  return w.Fprintf "\x7d\n"

/-- Source `func (b *Block) declModule(w *Context)`. -/
def Block.declModule (U : UnicodeTables) (D : DeclSlice) (b : Block) (w : Context) :
    Option Context := do
  let w ← if b.Events.length > 0 then do
      let w := w.Fprintf "\nconst (\n\t"
      let w ← D.events b.Events w none
      pure (w.Fprintf ")\n")
    else pure w
  let sym ← b.toBase.goSym U
  let w := w.Fprintf ("\ntype " ++ sym ++ " struct \x7b\n\t")
  let w := w.Fprintf "*js.Object\n\t"
  let w ← D.properties b.Properties w (some b.toBase)
  let w ← D.methods b.Methods w (some b.toBase)
  return w.Fprintf "\x7d\n"

/-- Source `func (b *Block) declClass(w *Context)`. -/
def Block.declClass (U : UnicodeTables) (D : DeclSlice) (b : Block) (w : Context) :
    Option Context := do
  let w ← if b.InstanceEvents.length > 0 then do
      let w := w.Fprintf "\nconst (\n\t"
      let w ← D.events b.InstanceEvents w none
      pure (w.Fprintf ")\n")
    else pure w
  let sym ← b.toBase.goSym U
  let w := w.Fprintf ("\ntype " ++ sym ++ " struct \x7b\n\t")
  let w := w.Fprintf "*js.Object\n\t"
  let w ← D.properties b.InstanceProperties w (some b.toBase)
  let w ← D.methods b.InstanceMethods w (some b.toBase)
  return w.Fprintf "\x7d\n"

/-- The functions of the registry that `ApiFile.decl` calls and the sources do not
contain.  `newContext` returns the pair of Go results `(ctx, err)`: a `*Context` that may
be nil and an error that may be nil; `Close` returns its error. -/
structure Registry where
  newContext : Base → Option Context × Option String
  declNewTypes : Context → Option Context
  Close : Context → Option String

/-- What `ApiFile.decl` does, in order: the lines it logs and the calls it makes. -/
inductive Call where
  | log (line : String)
  | newContext (block : String)
  | declModule (block : String)
  | declClass (block : String)
  | declOther (block : String)
  | declNewTypes (block : String)
  | Close (block : String)
  deriving DecidableEq, Repr

/-- One pass of the loop body of `ApiFile.decl` from the dispatched emitter on: the call
`call` of the emitter `emit` with `ctx`, then `ctx.declNewTypes()` and `ctx.Close()`, whose
error is logged.  The actions are appended to `trace`; the result is `none` beside the
trace when the body panics, which ends the run.  Writing through a nil `*Context` is taken
to panic. -/
def ApiFile.declEmit (R : Registry) (b : Block) (call : Call)
    (emit : Context → Option Context) (ctx : Option Context) (trace : List Call) :
    List Call × Option Unit :=
  let trace := trace ++ [call]
  match ctx with
  | none => (trace, none)
  | some w =>
      match emit w with
      | none => (trace, none)
      | some w =>
          let trace := trace ++ [Call.declNewTypes b.Name]
          match R.declNewTypes w with
          | none => (trace, none)
          | some w =>
              let trace := trace ++ [Call.Close b.Name]
              match R.Close w with
              | some err => (trace ++ [Call.log (b.Name ++ " " ++ err)], some ())
              | none => (trace, some ())

/-- The part of the loop body of `ApiFile.decl` after the error check: the dispatch
`if b.isModule() ... else if b.isClass() ... else ...` and what follows it. -/
def ApiFile.declBody (U : UnicodeTables) (D : DeclSlice) (R : Registry) (b : Block)
    (ctx : Option Context) (trace : List Call) : List Call × Option Unit :=
  match b.toBase.isModule with
  | none => (trace, none)
  | some true => ApiFile.declEmit R b (Call.declModule b.Name) (b.declModule U D) ctx trace
  | some false =>
      match b.toBase.isClass with
      | none => (trace, none)
      | some true => ApiFile.declEmit R b (Call.declClass b.Name) (b.declClass U D) ctx trace
      | some false =>
          ApiFile.declEmit R b (Call.declOther b.Name) (b.declOther U D) ctx trace

/-- The loop of `ApiFile.decl` over the Blocks that are left. -/
def ApiFile.declLoop (U : UnicodeTables) (D : DeclSlice) (R : Registry) :
    List Block → List Call → List Call × Option Unit
  | [], trace => (trace, some ())
  | b :: rest, trace =>
      let trace := trace ++ [Call.log ("Processing " ++ b.Name), Call.newContext b.Name]
      let (ctx, err) := R.newContext b.toBase
      let trace := match err with
        | some e => trace ++ [Call.log (b.Name ++ " " ++ e)]
        | none => trace
      match ApiFile.declBody U D R b ctx trace with
      | (trace, some ()) => ApiFile.declLoop U D R rest trace
      | (trace, none) => (trace, none)

/-- Source `func (a ApiFile) decl()`: the actions of the run in order, and whether the run
reached its end (`some ()`) or panicked (`none`). -/
def ApiFile.decl (U : UnicodeTables) (D : DeclSlice) (R : Registry) (a : List Block) :
    List Call × Option Unit :=
  ApiFile.declLoop U D R a []

/-- Modelled from the spec: `declSlice` is missing from the sources.  For a slice of
Events it declares each element in schema order, annotates it and ends the line. -/
def declSliceEvents (U : UnicodeTables) : List Event → Context → Option Base → Option Context
  | [], w, _ => some w
  | e :: rest, w, parent => do
      let w ← e.decl U w parent
      let w ← e.toBase.annotate w parent
      declSliceEvents U rest (w.Fprintf "\n\t") parent

/-- Modelled from the spec: `declSlice` is missing from the sources.  For a slice of
Properties it declares each element in schema order, annotates it and ends the line. -/
def declSliceProperties (U : UnicodeTables) (N : NameScheme) :
    List Property → Context → Option Base → Option Context
  | [], w, _ => some w
  | p :: rest, w, parent => do
      let (p, w) ← p.decl U N w parent
      let w ← p.toBase.annotate w parent
      declSliceProperties U N rest (w.Fprintf "\n\t") parent

/-- Modelled from the spec: `declSlice` is missing from the sources.  For a slice of
Methods it declares each element in schema order, annotates it and ends the line. -/
def declSliceMethods (U : UnicodeTables) (N : NameScheme) :
    List Method → Context → Option Base → Option Context
  | [], w, _ => some w
  | m :: rest, w, parent => do
      let (m, w) ← m.decl U N w parent
      let w ← m.toBase.annotate w parent
      declSliceMethods U N rest (w.Fprintf "\n\t") parent

/-- The three uses of the modelled `declSlice`. -/
def specDeclSlice (U : UnicodeTables) (N : NameScheme) : DeclSlice :=
  { events := declSliceEvents U,
    properties := declSliceProperties U N,
    methods := declSliceMethods U N }

/-- A name scheme for running the definitions: the normalised parent name followed by
the normalised property name. -/
def plainNames : NameScheme :=
  { typeName := fun p parent =>
      goSym asciiTables ((parent.map (fun b => b.Name)).getD "") ++ goSym asciiTables p.toBase.Name,
    constName := fun p parent =>
      goSym asciiTables ((parent.map (fun b => b.Name)).getD "") ++ goSym asciiTables p.toBase.Name }

/-- A registry whose `newContext` fails for the Block named `failing`, returning a nil
Context and an error, and succeeds with an empty Context for every other Block. -/
def registryFailingNil (failing : String) : Registry :=
  { newContext := fun b =>
      if b.Name = failing then (none, some "open: permission denied")
      else (some { base := b }, none),
    declNewTypes := fun w => some w,
    Close := fun _ => none }

/-- A registry whose `newContext` fails for the Block named `failing`, returning an error
beside a usable Context, and succeeds for every other Block. -/
def registryFailingCtx (failing : String) : Registry :=
  { newContext := fun b =>
      if b.Name = failing then (some { base := b }, some "open: permission denied")
      else (some { base := b }, none),
    declNewTypes := fun w => some w,
    Close := fun _ => none }

/-! ## Properties written in the words of the specification -/

/-- The tags the specification lists as recognised by the Basic Type Mapper. -/
def specRecognizedTags : List String :=
  ["", "String", "Integer", "Number", "Double", "Float", "Boolean"]

/-- The upper-case spellings that `basicType` accepts besides the listed tags. -/
def upperCaseTags : List String :=
  ["INTEGER", "NUMBER", "DOUBLE", "FLOAT", "BOOLEAN"]

/-- The names of the five kinds other than Basic. -/
def namedKinds : List String :=
  ["Module", "Class", "Structure", "Function", "Object"]

/-- A raw value that is a string. -/
def RawValue.isString : RawValue → Bool
  | .string _ => true
  | _ => false

/-- A raw type the specification calls malformed: neither absent, nor a string, nor a
non-empty list of strings. -/
def malformedRawType : Option RawValue → Bool
  | none => false
  | some (.string _) => false
  | some (.slice elems) => !(!elems.isEmpty && elems.all RawValue.isString)
  | some _ => true

/-- The characters the replacer turns into a space, in the order of its argument list. -/
def replacedChars : List Char :=
  [Char.ofNat 96, Char.ofNat 34, '.', '_', '-', ' ', Char.ofNat 9, '(', ')']

/-- A lower-case ASCII letter. -/
def isAsciiLower (c : Char) : Bool :=
  decide (97 ≤ c.toNat) && decide (c.toNat ≤ 122)

/-- An ASCII letter. -/
def isAsciiLetter (c : Char) : Bool :=
  (decide (65 ≤ c.toNat) && decide (c.toNat ≤ 90)) || isAsciiLower c

/-- An ASCII digit. -/
def isAsciiDigit (c : Char) : Bool :=
  decide (48 ≤ c.toNat) && decide (c.toNat ≤ 57)

/-- A word with every occurrence of "url" rewritten to "URL", left to right. -/
def rewriteUrl : List Char → List Char
  | 'u' :: 'r' :: 'l' :: rest => 'U' :: 'R' :: 'L' :: rewriteUrl rest
  | c :: rest => c :: rewriteUrl rest
  | [] => []

/-- A word with its first letter upper-cased. -/
def upperFirst : List Char → List Char
  | [] => []
  | c :: rest => c.toUpper :: rest

/-- A non-empty word of lower-case ASCII letters. -/
def lowerWord (w : List Char) : Bool :=
  !w.isEmpty && w.all isAsciiLower

/-- The name made of a first word and further words, each preceded by one joining
character. -/
def joinWords : List Char → List (Char × List Char) → List Char
  | w0, [] => w0
  | w0, (sep, w) :: rest => w0 ++ sep :: joinWords w rest

/-- Every word is a non-empty word of lower-case ASCII letters and every joining character
is one of the replaced characters. -/
def wellFormedWords : List Char → List (Char × List Char) → Bool
  | w0, [] => lowerWord w0
  | w0, (sep, w) :: rest => lowerWord w0 && replacedChars.contains sep && wellFormedWords w rest

/-- The words, each with "url" rewritten to "URL" and its first letter upper-cased,
concatenated in order with nothing between them. -/
def titleWords : List Char → List (Char × List Char) → List Char
  | w0, [] => upperFirst (rewriteUrl w0)
  | w0, (_, w) :: rest => upperFirst (rewriteUrl w0) ++ titleWords w rest

/-- The words with "url" rewritten to "URL", each joining character turned into a space:
the text between the replacer and the title-casing. -/
def spacedWords : List Char → List (Char × List Char) → List Char
  | w0, [] => rewriteUrl w0
  | w0, (_, w) :: rest => rewriteUrl w0 ++ ' ' :: spacedWords w rest

/-- A letter of the target language: a Unicode letter or the underscore. -/
def isIdentLetter (U : UnicodeTables) (c : Char) : Bool :=
  if c.toNat ≤ 0x7F then isAsciiLetter c || c == '_' else U.isLetter c

/-- A digit of the target language: a Unicode decimal digit. -/
def isIdentDigit (U : UnicodeTables) (c : Char) : Bool :=
  if c.toNat ≤ 0x7F then isAsciiDigit c else U.isDigit c

/-- A valid declaration identifier: non-empty, the first character a letter or underscore,
every other character a letter, digit or underscore. -/
def isValidIdentifier (U : UnicodeTables) : List Char → Bool
  | [] => false
  | c :: rest => isIdentLetter U c && rest.all (fun x => isIdentLetter U x || isIdentDigit U x)

/-- The source-name tag that `annotate` writes for the raw name `name`. -/
def sourceNameTag (name : String) : String :=
  " " ++ backtick ++ "js:" ++ dquote ++ name ++ dquote ++ backtick ++ " "

/-- The field has a parent and the parent's kind is not Function. -/
def hasNonFunctionParent : Option Base → Bool
  | none => false
  | some par => par.Type_ != some "Function"

/-- The text of a list of strings written one after the other. -/
def concatStrings : List String → String
  | [] => ""
  | s :: rest => s ++ concatStrings rest

/-- A named Basic property without PossibleValues. -/
def Property.isPlain (p : Property) : Bool :=
  p.toBase.Name != "" && p.PossibleValues.isNone && p.toBase.isBasic == some true

/-- The field text of a named Basic property: the normalised name, a space and the
primitive type of its type tag. -/
def plainField (U : UnicodeTables) (p : Property) : String :=
  goSym U p.toBase.Name ++ " " ++ basicType (p.toBase.Type_.getD "")

/-- The text the specification gives for a Method of plain parameters: the display name,
" func(", each parameter followed by a comma, ")", and the return in parentheses when
there is one. -/
def methodText (U : UnicodeTables) (sym : String) (m : Method) : String :=
  sym ++ " func(" ++ concatStrings (m.Parameters.map (fun p => plainField U p ++ ","))
    ++ ")" ++
    (match m.Return with
     | some r => "(" ++ plainField U r ++ ")"
     | none => "")

/-- A Method with one Integer parameter and a Boolean return, for running the
definitions. -/
def isVisibleMethod : Method :=
  { Name := "is-visible",
    Parameters := [.mk { Name := "window-id", RawType := some (.string "Integer") } [] [] none],
    Return := some (.mk { Name := "visible", RawType := some (.string "Boolean") } [] [] none) }

/-- The Property as `Property.decl` leaves it: an empty name has become "obj". -/
def Property.named (p : Property) : Property :=
  if p.toBase.Name = "" then p.setName "obj" else p

/-- An Object-typed Property with the members "width" and "height", for running the
definitions. -/
def sizeProperty : Property :=
  .mk { Name := "size", RawType := some (.string "Object") }
    [.mk { Name := "width", RawType := some (.string "Integer") } [] [] none,
     .mk { Name := "height", RawType := some (.string "Integer") } [] [] none] [] none

/-- An Object-typed Property of the same name with the single member "scale". -/
def scaleProperty : Property :=
  .mk { Name := "size", RawType := some (.string "Object") }
    [.mk { Name := "scale", RawType := some (.string "Number") } [] [] none] [] none

/-- Step 1 of the specification's algorithm: each backtick, double quote, dot, underscore,
hyphen, parenthesis and tab (and space) is replaced by a space. -/
def specSpaced (s : List Char) : List Char :=
  s.map (fun c => if replacedChars.contains c then ' ' else c)

/-- Step 2 of the specification's algorithm: "url" and "Url" are rewritten to "URL", left
to right. -/
def specAcronym : List Char → List Char
  | 'u' :: 'r' :: 'l' :: rest => 'U' :: 'R' :: 'L' :: specAcronym rest
  | 'U' :: 'r' :: 'l' :: rest => 'U' :: 'R' :: 'L' :: specAcronym rest
  | c :: rest => c :: specAcronym rest
  | [] => []

/-- An ASCII whitespace character: tab, line feed, vertical tab, form feed, carriage
return or space. -/
def isAsciiWhitespace (c : Char) : Bool :=
  (decide (9 ≤ c.toNat) && decide (c.toNat ≤ 13)) || c.toNat == 32

/-- Whitespace: the ASCII whitespace characters and the Unicode spaces. -/
def specWhitespace (U : UnicodeTables) (c : Char) : Bool :=
  if c.toNat ≤ 0x7F then isAsciiWhitespace c else U.isSpace c

/-- Step 3 of the specification's algorithm: the first character of each
whitespace-separated word is upper-cased (with the title-case mapping the code uses) and
every other character is left unchanged.  `wordStart` says that the text so far is empty
or ends in whitespace. -/
def specTitleLoop (U : UnicodeTables) : Bool → List Char → List Char
  | _, [] => []
  | wordStart, c :: rest =>
      (if wordStart then toTitle U c else c) :: specTitleLoop U (specWhitespace U c) rest

/-- The specification's reference algorithm for the Normalizer: replace the punctuation by
spaces, rewrite the acronym, title-case each whitespace-separated word, delete the
spaces. -/
def specGoSym (U : UnicodeTables) (s : List Char) : List Char :=
  (specTitleLoop U true (specAcronym (specSpaced s))).filter (fun c => c != ' ')

/-- A character after which the code and the specification agree on whether a word
starts: a replaced character, an ASCII letter, digit or whitespace, or a rune above ASCII
that the tables do not class both as letter or digit and as space.  ASCII punctuation
outside the replaced set, such as comma, slash and apostrophe, is excluded. -/
def plainRune (U : UnicodeTables) (c : Char) : Bool :=
  replacedChars.contains c ||
    (if c.toNat ≤ 0x7F then isAsciiLetter c || isAsciiDigit c || isAsciiWhitespace c
     else !((U.isLetter c || U.isDigit c) && U.isSpace c))

/-- The text starts with "url" or "Url". -/
def startsUrl (s : List Char) : Bool :=
  ['u', 'r', 'l'].isPrefixOf s || ['U', 'r', 'l'].isPrefixOf s

/-- No position of the text starts with "url" or "Url". -/
def urlFree : List Char → Bool
  | [] => true
  | c :: rest => !startsUrl (c :: rest) && urlFree rest

/-- A fact about the title-case table of package `unicode`: the only ASCII runes that are
the title case of a rune above ASCII are 'I' (of U+0131) and 'S' (of U+017F). -/
def UnicodeTables.titleAsciiOnlyIS (U : UnicodeTables) : Prop :=
  ∀ c : Char, 0x7F < c.toNat →
    0x7F < (U.toTitle c).toNat ∨ U.toTitle c = 'I' ∨ U.toTitle c = 'S'

/-- Facts about the title-case table of package `unicode`: besides `titleAsciiOnlyIS`,
title-casing a rune twice gives the same as once, and the title case of a rune that is not
a separator is not a separator. -/
def UnicodeTables.titleStable (U : UnicodeTables) : Prop :=
  U.titleAsciiOnlyIS
  ∧ (∀ c : Char, 0x7F < c.toNat → Json2raw.toTitle U (U.toTitle c) = U.toTitle c)
  ∧ (∀ c : Char, 0x7F < c.toNat → isSeparator U c = false →
      isSeparator U (U.toTitle c) = false)

/-- The annotation rule of the specification for the Property fields of a Block: each
field is declared in schema order and, when `tagged`, followed by the source-name tag of
its raw name; then the line ends. -/
def taggedProperties (U : UnicodeTables) (N : NameScheme) (tagged : Bool) :
    List Property → Context → Option Base → Option Context
  | [], w, _ => some w
  | p :: rest, w, parent => do
      let (p, w) ← p.decl U N w parent
      let w := if tagged then w.Fprintf (sourceNameTag p.toBase.Name) else w
      taggedProperties U N tagged rest (w.Fprintf "\n\t") parent

/-- The modelled `declSlice` with the annotation rule in place of the call of `annotate`
for the Property fields. -/
def taggedDeclSlice (U : UnicodeTables) (N : NameScheme) (tagged : Bool) : DeclSlice :=
  { specDeclSlice U N with properties := taggedProperties U N tagged }

/-- A Block with the single Integer property "width", of the kind given, for running the
definitions. -/
def widthBlock (kind : String) : Block :=
  { Name := "size", RawType := some (.string kind),
    Properties := [.mk { Name := "width", RawType := some (.string "Integer") } [] [] none],
    InstanceProperties :=
      [.mk { Name := "width", RawType := some (.string "Integer") } [] [] none] }

/-! ## Theorems -/

/-! ### The replacer on its table -/

theorem replacerLoop_replaced (c : Char) (rest : List Char) (h : c ∈ replacedChars) :
    replacerLoop replacer 0 (c :: rest) = ' ' :: replacerLoop replacer 0 rest := by
  simp [replacedChars] at h
  rcases h with rfl | rfl | rfl | rfl | rfl | rfl | rfl | rfl | rfl <;>
    simp [replacerLoop, replacerLookup, replacer]

theorem replacerLoop_url (t : List Char) :
    replacerLoop replacer 0 ('u' :: 'r' :: 'l' :: t)
      = 'U' :: 'R' :: 'L' :: replacerLoop replacer 0 t := by
  simp [replacerLoop, replacerLookup, replacer]

theorem replacerLoop_Url (t : List Char) :
    replacerLoop replacer 0 ('U' :: 'r' :: 'l' :: t)
      = 'U' :: 'R' :: 'L' :: replacerLoop replacer 0 t := by
  simp [replacerLoop, replacerLookup, replacer]

theorem isPrefixOf_rl (rest : List Char) (h : ['r', 'l'].isPrefixOf rest = true) :
    ∃ t, rest = 'r' :: 'l' :: t := by
  match rest, h with
  | [], h => simp [List.isPrefixOf] at h
  | [_], h => simp [List.isPrefixOf] at h
  | a :: b :: t, h =>
    simp [List.isPrefixOf] at h
    exact ⟨t, by rw [h.1, h.2]⟩

theorem replacerLoop_copy (c : Char) (rest : List Char) (h : c ∉ replacedChars)
    (hu : ∀ t, rest = 'r' :: 'l' :: t → c ≠ 'u' ∧ c ≠ 'U') :
    replacerLoop replacer 0 (c :: rest) = c :: replacerLoop replacer 0 rest := by
  have hl : replacerLookup replacer (c :: rest) = none := by
    rw [replacerLookup, List.find?_eq_none]
    intro p hp
    simp only [replacer, List.mem_cons, List.mem_singleton, List.not_mem_nil, or_false] at hp
    simp only [replacedChars, List.mem_cons, List.mem_singleton, List.not_mem_nil, or_false,
      not_or] at h
    obtain ⟨h1, h2, h3, h4, h5, h6, h7, h8, h9⟩ := h
    rcases hp with rfl | rfl | rfl | rfl | rfl | rfl | rfl | rfl | rfl | rfl | rfl
    all_goals simp only [List.isPrefixOf, Bool.and_true, beq_iff_eq, Bool.and_eq_true,
      Bool.not_eq_true]
    all_goals first
      | (intro hc; exact absurd hc.symm ‹_›)
      | (intro hc
         obtain ⟨t, ht⟩ := isPrefixOf_rl rest (by simpa [List.isPrefixOf] using hc.2)
         have := hu t ht
         exact absurd hc.1.symm (by first | exact this.1 | exact this.2))
  simp [replacerLoop, hl]

/-! ### Character classes -/

theorem isAsciiLower_bounds (c : Char) (h : isAsciiLower c = true) :
    97 ≤ c.toNat ∧ c.toNat ≤ 122 := by
  simpa [isAsciiLower] using h

theorem not_replaced_of_toNat (c : Char) (h : 48 ≤ c.toNat) (h5 : c.toNat ≠ 95)
    (h6 : c.toNat ≠ 96) : c ∉ replacedChars := by
  intro hc
  simp only [replacedChars, List.mem_cons, List.mem_singleton, List.not_mem_nil, or_false] at hc
  rcases hc with rfl | rfl | rfl | rfl | rfl | rfl | rfl | rfl | rfl <;> revert h h5 h6 <;> decide

theorem isSeparator_letter_digit (U : UnicodeTables) (c : Char)
    (h : isAsciiLetter c = true ∨ isAsciiDigit c = true) : isSeparator U c = false := by
  simp only [isAsciiLetter, isAsciiLower, isAsciiDigit, Bool.or_eq_true, Bool.and_eq_true,
    decide_eq_true_eq] at h
  unfold isSeparator
  have h127 : c.toNat ≤ 0x7F := by omega
  rw [if_pos h127]
  by_cases hd : 48 ≤ c.toNat ∧ c.toNat ≤ 57
  · rw [if_pos hd]
  · rw [if_neg hd]
    by_cases hl : 97 ≤ c.toNat ∧ c.toNat ≤ 122
    · rw [if_pos hl]
    · rw [if_neg hl]
      have hu : 65 ≤ c.toNat ∧ c.toNat ≤ 90 := by omega
      rw [if_pos hu]

theorem toTitle_ascii (U : UnicodeTables) (c : Char) (h : c.toNat ≤ 0x7F) :
    toTitle U c = c.toUpper := by
  have key : ∀ n : Nat, n ≤ 0x7F → toTitle U (Char.ofNat n) = (Char.ofNat n).toUpper := by
    intro n hn
    interval_cases n <;> rfl
  have := key c.toNat h
  rwa [Char.ofNat_toNat] at this

theorem isSeparator_space (U : UnicodeTables) : isSeparator U ' ' = true := by rfl

theorem toTitle_space (U : UnicodeTables) : toTitle U ' ' = ' ' := by rfl

/-! ### `strings.Title` and the removal of spaces -/

theorem titleLoop_space (U : UnicodeTables) (p : Char) (s : List Char) :
    titleLoop U p (' ' :: s) = ' ' :: titleLoop U ' ' s := by
  simp [titleLoop, toTitle_space]

theorem titleLoop_inside_word (U : UnicodeTables) (xs tail : List Char) :
    ∀ p : Char, isSeparator U p = false → (∀ c ∈ xs, isSeparator U c = false) →
      ∃ q, titleLoop U p (xs ++ tail) = xs ++ titleLoop U q tail := by
  induction xs with
  | nil => intro p _ _; exact ⟨p, rfl⟩
  | cons x xs ih =>
    intro p hp hxs
    obtain ⟨q, hq⟩ := ih x (hxs x (List.mem_cons_self _ _))
      (fun c hc => hxs c (List.mem_cons_of_mem _ hc))
    exact ⟨q, by simp [titleLoop, hp, hq]⟩

theorem replaceLoop_space (s : List Char) :
    replaceLoop [' '] [] none 0 s = s.filter (fun c => c != ' ') := by
  induction s with
  | nil => rfl
  | cons c rest ih =>
    by_cases hc : c = ' '
    · subst hc
      simp [replaceLoop, List.isPrefixOf, ih]
    · have hc2 : ¬ ' ' = c := fun h => hc h.symm
      simp [replaceLoop, List.isPrefixOf, ih, hc, hc2]

theorem stringsReplace_space (s : List Char) :
    stringsReplace s [' '] [] (-1) = s.filter (fun c => c != ' ') := by
  simp [stringsReplace, replaceLoop_space]

theorem goSymRunes_eq (U : UnicodeTables) (s : List Char) :
    goSymRunes U s
      = (titleLoop U ' ' (replacerLoop replacer 0 s)).filter (fun c => c != ' ') := by
  simp [goSymRunes, replacerReplace, Title, stringsReplace_space]

/-! ### Names made of lower-case words -/

theorem isAsciiLower_not_replaced (c : Char) (h : isAsciiLower c = true) :
    c ∉ replacedChars := by
  have hb := isAsciiLower_bounds c h
  exact not_replaced_of_toNat c (by omega) (by omega) (by omega)

theorem isAsciiLower_ne_upper_U (c : Char) (h : isAsciiLower c = true) : c ≠ 'U' := by
  have hb := isAsciiLower_bounds c h
  rintro rfl
  revert hb
  decide

theorem replacerLoop_lower_word (w tail : List Char) (hw : ∀ c ∈ w, isAsciiLower c = true)
    (ht : ∀ c ∈ tail.head?, isAsciiLower c = false) :
    replacerLoop replacer 0 (w ++ tail) = rewriteUrl w ++ replacerLoop replacer 0 tail := by
  induction w using rewriteUrl.induct with
  | case1 rest ih =>
    have hrest : ∀ c ∈ rest, isAsciiLower c = true := fun c hc =>
      hw c (by simp [hc])
    simp only [List.cons_append, replacerLoop_url, rewriteUrl, ih hrest]
  | case2 c rest hnot ih =>
    have hrest : ∀ c ∈ rest, isAsciiLower c = true := fun c hc =>
      hw c (List.mem_cons_of_mem _ hc)
    have hc : isAsciiLower c = true := hw c (List.mem_cons_self _ _)
    rw [rewriteUrl.eq_2 c rest hnot, List.cons_append, List.cons_append,
      replacerLoop_copy c (rest ++ tail) (isAsciiLower_not_replaced c hc), ih hrest]
    intro t hrt
    refine ⟨?_, isAsciiLower_ne_upper_U c hc⟩
    intro hcu
    match rest, hrt, hnot, hrest with
    | [], hrt, _, _ =>
      simp only [List.nil_append] at hrt
      have := ht 'r' (by simp [hrt])
      revert this; decide
    | [a], hrt, _, _ =>
      simp only [List.cons_append, List.nil_append, List.cons.injEq] at hrt
      have := ht 'l' (by simp [hrt.2])
      revert this; decide
    | a :: b :: rest2, hrt, hnot, _ =>
      simp only [List.cons_append, List.cons.injEq] at hrt
      exact hnot rest2 hcu (by rw [hrt.1, hrt.2.1])
  | case3 => simp [rewriteUrl]

theorem joinWords_head_not_lower (sep : Char) (w : List Char)
    (rest : List (Char × List Char)) (hs : sep ∈ replacedChars) :
    ∀ c ∈ (sep :: joinWords w rest).head?, isAsciiLower c = false := by
  intro c hc
  simp only [List.head?_cons, Option.mem_def, Option.some.injEq] at hc
  subst hc
  cases h : isAsciiLower sep with
  | false => rfl
  | true => exact absurd hs (isAsciiLower_not_replaced sep h)

theorem wellFormedWords_cons (w0 : List Char) (sep : Char) (w : List Char)
    (rest : List (Char × List Char)) (h : wellFormedWords w0 ((sep, w) :: rest) = true) :
    lowerWord w0 = true ∧ sep ∈ replacedChars ∧ wellFormedWords w rest = true := by
  simpa [wellFormedWords, and_assoc] using h

theorem lowerWord_spec (w : List Char) (h : lowerWord w = true) :
    w ≠ [] ∧ ∀ c ∈ w, isAsciiLower c = true := by
  simpa [lowerWord] using h

theorem replacerLoop_joinWords (rest : List (Char × List Char)) :
    ∀ w0, wellFormedWords w0 rest = true →
      replacerLoop replacer 0 (joinWords w0 rest) = spacedWords w0 rest := by
  induction rest with
  | nil =>
    intro w0 h
    have hw := (lowerWord_spec w0 (by simpa [wellFormedWords] using h)).2
    have := replacerLoop_lower_word w0 [] hw (by simp)
    simpa [joinWords, spacedWords, replacerLoop] using this
  | cons p rest ih =>
    intro w0 h
    obtain ⟨sep, w⟩ := p
    obtain ⟨h0, hs, hr⟩ := wellFormedWords_cons w0 sep w rest h
    have hw := (lowerWord_spec w0 h0).2
    rw [joinWords, replacerLoop_lower_word w0 _ hw (joinWords_head_not_lower sep w rest hs),
      replacerLoop_replaced sep _ hs, ih w hr, spacedWords]

theorem rewriteUrl_chars (w : List Char) (hw : ∀ c ∈ w, isAsciiLower c = true) :
    ∀ c ∈ rewriteUrl w, isAsciiLetter c = true := by
  induction w using rewriteUrl.induct with
  | case1 rest ih =>
    intro c hc
    simp only [rewriteUrl, List.mem_cons] at hc
    rcases hc with rfl | rfl | rfl | hc
    · decide
    · decide
    · decide
    · exact ih (fun c hc => hw c (by simp [hc])) c hc
  | case2 x rest hnot ih =>
    intro c hc
    rw [rewriteUrl.eq_2 x rest hnot, List.mem_cons] at hc
    rcases hc with rfl | hc
    · simp [isAsciiLetter, hw c (List.mem_cons_self _ _)]
    · exact ih (fun c hc => hw c (List.mem_cons_of_mem _ hc)) c hc
  | case3 => simp [rewriteUrl]

theorem rewriteUrl_ne_nil (w : List Char) (h : w ≠ []) : rewriteUrl w ≠ [] := by
  induction w using rewriteUrl.induct with
  | case1 rest ih => simp [rewriteUrl]
  | case2 x rest hnot ih => rw [rewriteUrl.eq_2 x rest hnot]; simp
  | case3 => exact absurd rfl h

theorem isAsciiLetter_ne_space (c : Char) (h : isAsciiLetter c = true) : (c != ' ') = true := by
  simp only [bne_iff_ne, ne_eq]
  rintro rfl
  revert h
  decide

theorem isAsciiLetter_le (c : Char) (h : isAsciiLetter c = true) : c.toNat ≤ 0x7F := by
  simp only [isAsciiLetter, isAsciiLower, Bool.or_eq_true, Bool.and_eq_true,
    decide_eq_true_eq] at h
  omega

theorem toUpper_ne_space (c : Char) (h : isAsciiLetter c = true) :
    (c.toUpper != ' ') = true := by
  have h127 := isAsciiLetter_le c h
  have key : ∀ n : Nat, n ≤ 0x7F → isAsciiLetter (Char.ofNat n) = true →
      ((Char.ofNat n).toUpper != ' ') = true := by
    intro n hn
    interval_cases n <;> decide
  have := key c.toNat h127
  rw [Char.ofNat_toNat] at this
  exact this h

/-- Title-casing and space removal of one rewritten word followed by the rest of the
text. -/
theorem title_filter_word (U : UnicodeTables) (W tail : List Char) (hW : W ≠ [])
    (hl : ∀ c ∈ W, isAsciiLetter c = true) :
    ∃ q, (titleLoop U ' ' (W ++ tail)).filter (fun c => c != ' ')
      = upperFirst W ++ (titleLoop U q tail).filter (fun c => c != ' ') := by
  match W, hW, hl with
  | x :: xs, _, hl =>
    have hx := hl x (List.mem_cons_self _ _)
    have hxs : ∀ c ∈ xs, isAsciiLetter c = true := fun c hc => hl c (List.mem_cons_of_mem _ hc)
    obtain ⟨q, hq⟩ := titleLoop_inside_word U xs tail x
      (isSeparator_letter_digit U x (Or.inl hx))
      (fun c hc => isSeparator_letter_digit U c (Or.inl (hxs c hc)))
    refine ⟨q, ?_⟩
    have hf : xs.filter (fun c => c != ' ') = xs :=
      List.filter_eq_self.mpr (fun c hc => isAsciiLetter_ne_space c (hxs c hc))
    rw [List.cons_append, titleLoop, hq]
    simp only [isSeparator_space, if_true, upperFirst,
      toTitle_ascii U x (isAsciiLetter_le x hx), List.filter_cons, toUpper_ne_space x hx,
      List.filter_append, hf, List.cons_append]

theorem title_filter_spacedWords (U : UnicodeTables) (rest : List (Char × List Char)) :
    ∀ w0, wellFormedWords w0 rest = true →
      (titleLoop U ' ' (spacedWords w0 rest)).filter (fun c => c != ' ')
        = titleWords w0 rest := by
  induction rest with
  | nil =>
    intro w0 h
    obtain ⟨hne, hw⟩ := lowerWord_spec w0 (by simpa [wellFormedWords] using h)
    obtain ⟨q, hq⟩ := title_filter_word U (rewriteUrl w0) [] (rewriteUrl_ne_nil w0 hne)
      (rewriteUrl_chars w0 hw)
    simpa [spacedWords, titleWords, titleLoop] using hq
  | cons p rest ih =>
    intro w0 h
    obtain ⟨sep, w⟩ := p
    obtain ⟨h0, hs, hr⟩ := wellFormedWords_cons w0 sep w rest h
    obtain ⟨hne, hw⟩ := lowerWord_spec w0 h0
    obtain ⟨q, hq⟩ := title_filter_word U (rewriteUrl w0) (' ' :: spacedWords w rest)
      (rewriteUrl_ne_nil w0 hne) (rewriteUrl_chars w0 hw)
    rw [spacedWords, hq, titleLoop_space, titleWords]
    simp [ih w hr]

/-- C1: for every name built from one or more non-empty words of lower-case ASCII letters
joined by single characters of the replaced set, `goSym` returns the words, each with
"url" rewritten to "URL" and its first letter upper-cased, concatenated in order with no
separator; in particular "background-color" gives "BackgroundColor", "will-navigate"
gives "WillNavigate" and "request.url" gives "RequestURL". -/
theorem goSym_lower_words (U : UnicodeTables) (w0 : List Char)
    (rest : List (Char × List Char)) (h : wellFormedWords w0 rest = true) :
    goSym U (String.mk (joinWords w0 rest)) = String.mk (titleWords w0 rest)
    ∧ goSym U "background-color" = "BackgroundColor"
    ∧ goSym U "will-navigate" = "WillNavigate"
    ∧ goSym U "request.url" = "RequestURL" := by
  refine ⟨?_, rfl, rfl, rfl⟩
  simp only [goSym, goSymRunes_eq, replacerLoop_joinWords rest w0 h,
    title_filter_spacedWords U rest w0 h]

theorem goSym_lower_words_witness :
    wellFormedWords "request".data [('.', "url".data), ('_', "curl".data)] = true
    ∧ (goSym asciiTables (String.mk (joinWords "request".data
          [('.', "url".data), ('_', "curl".data)]))
        = String.mk (titleWords "request".data [('.', "url".data), ('_', "curl".data)])
      ∧ goSym asciiTables "background-color" = "BackgroundColor"
      ∧ goSym asciiTables "will-navigate" = "WillNavigate"
      ∧ goSym asciiTables "request.url" = "RequestURL") :=
  ⟨by decide,
    goSym_lower_words asciiTables "request".data [('.', "url".data), ('_', "curl".data)]
      (by decide)⟩

/-! ### The acronym survives -/

theorem replacerLookup_mem (s : List Char) (p : List Char × List Char)
    (h : replacerLookup replacer s = some p) :
    (p.1.length - 1 = 0 ∧ p.2 = [' ']) ∨ p.2 = ['U', 'R', 'L'] := by
  have hm : p ∈ replacer := List.mem_of_find?_eq_some h
  simp only [replacer, List.mem_cons, List.mem_singleton, List.not_mem_nil, or_false] at hm
  rcases hm with rfl | rfl | rfl | rfl | rfl | rfl | rfl | rfl | rfl | rfl | rfl <;> simp

theorem replacerLoop_contains_URL (pat : List Char)
    (hpat : pat = ['u', 'r', 'l'] ∨ pat = ['U', 'r', 'l']) (post : List Char) :
    ∀ pre : List Char, ['U', 'R', 'L'] <:+: replacerLoop replacer 0 (pre ++ pat ++ post) := by
  intro pre
  induction pre with
  | nil =>
    rcases hpat with rfl | rfl
    · simp only [List.nil_append, List.cons_append, replacerLoop_url]
      exact ⟨[], replacerLoop replacer 0 post, by simp⟩
    · simp only [List.nil_append, List.cons_append, replacerLoop_Url]
      exact ⟨[], replacerLoop replacer 0 post, by simp⟩
  | cons c pre ih =>
    simp only [List.cons_append, List.append_assoc] at ih ⊢
    rw [replacerLoop]
    cases hl : replacerLookup replacer (c :: (pre ++ (pat ++ post))) with
    | none => exact ih.trans (List.suffix_cons _ _).isInfix
    | some p =>
      obtain ⟨old, new⟩ := p
      rcases replacerLookup_mem _ _ hl with ⟨h0, h1⟩ | h1
      · simp only at h0 h1
        simp only [h0, h1]
        exact ih.trans (List.suffix_cons _ _).isInfix
      · simp only at h1
        simp only [h1]
        exact ⟨[], replacerLoop replacer (old.length - 1) (pre ++ (pat ++ post)), by simp⟩

theorem titleLoop_append (U : UnicodeTables) (a t : List Char) :
    ∀ p, ∃ q, titleLoop U p (a ++ t) = titleLoop U p a ++ titleLoop U q t := by
  induction a with
  | nil => intro p; exact ⟨p, rfl⟩
  | cons x a ih =>
    intro p
    obtain ⟨q, hq⟩ := ih x
    exact ⟨q, by simp [titleLoop, hq]⟩

theorem titleLoop_URL (U : UnicodeTables) (p : Char) (b : List Char) :
    titleLoop U p ('U' :: 'R' :: 'L' :: b) = 'U' :: 'R' :: 'L' :: titleLoop U 'L' b := by
  have h1 : toTitle U 'U' = 'U' := rfl
  have h2 : isSeparator U 'U' = false := rfl
  have h3 : isSeparator U 'R' = false := rfl
  simp [titleLoop, h1, h2, h3]

theorem titleLoop_contains_URL (U : UnicodeTables) (p : Char) (s : List Char)
    (h : ['U', 'R', 'L'] <:+: s) : ['U', 'R', 'L'] <:+: titleLoop U p s := by
  obtain ⟨a, b, rfl⟩ := h
  rw [List.append_assoc]
  obtain ⟨q, hq⟩ := titleLoop_append U a (['U', 'R', 'L'] ++ b) p
  rw [hq]
  simp only [List.cons_append, List.nil_append, titleLoop_URL]
  exact ⟨titleLoop U p a, titleLoop U 'L' b, by simp⟩

theorem filter_contains_URL (s : List Char) (h : ['U', 'R', 'L'] <:+: s) :
    ['U', 'R', 'L'] <:+: s.filter (fun c => c != ' ') := by
  obtain ⟨a, b, rfl⟩ := h
  refine ⟨a.filter (fun c => c != ' '), b.filter (fun c => c != ' '), ?_⟩
  have : (['U', 'R', 'L'] : List Char).filter (fun c => c != ' ') = ['U', 'R', 'L'] := by
    decide
  simp only [List.filter_append, this]

/-- The three ways the replacer's scan can move at a rune `c`: a replaced character
becomes a space, a match of "url" or "Url" becomes "URL", any other rune is copied. -/
theorem replacerLoop_cases (c : Char) (rest : List Char) :
    (c ∈ replacedChars
      ∧ replacerLoop replacer 0 (c :: rest) = ' ' :: replacerLoop replacer 0 rest)
    ∨ (∃ t, rest = 'r' :: 'l' :: t ∧ (c = 'u' ∨ c = 'U')
      ∧ replacerLoop replacer 0 (c :: rest) = 'U' :: 'R' :: 'L' :: replacerLoop replacer 0 t)
    ∨ (c ∉ replacedChars ∧ (∀ t, rest = 'r' :: 'l' :: t → c ≠ 'u' ∧ c ≠ 'U')
      ∧ replacerLoop replacer 0 (c :: rest) = c :: replacerLoop replacer 0 rest) := by
  by_cases hc : c ∈ replacedChars
  · exact Or.inl ⟨hc, replacerLoop_replaced c rest hc⟩
  · by_cases hu : ∀ t, rest = 'r' :: 'l' :: t → c ≠ 'u' ∧ c ≠ 'U'
    · exact Or.inr (Or.inr ⟨hc, hu, replacerLoop_copy c rest hc hu⟩)
    · simp only [not_forall, not_and_or, not_not, ne_eq] at hu
      obtain ⟨t, ht, hcu⟩ := hu
      refine Or.inr (Or.inl ⟨t, ht, hcu, ?_⟩)
      subst ht
      rcases hcu with rfl | rfl
      · exact replacerLoop_url t
      · exact replacerLoop_Url t

/-- An occurrence of "url" or "Url" is rewritten where it stands: no replacement that
starts before it reaches into it. -/
theorem replacerLoop_split (pat : List Char)
    (hpat : pat = ['u', 'r', 'l'] ∨ pat = ['U', 'r', 'l']) (post : List Char) :
    ∀ (n : Nat) (pre : List Char), pre.length = n →
      replacerLoop replacer 0 (pre ++ pat ++ post)
        = replacerLoop replacer 0 pre ++ 'U' :: 'R' :: 'L' :: replacerLoop replacer 0 post := by
  intro n
  induction n using Nat.strong_induction_on with
  | _ n ih =>
    intro pre hn
    match pre, hn with
    | [], _ =>
      rcases hpat with rfl | rfl
      · simp only [List.nil_append, List.cons_append, replacerLoop_url]
        rfl
      · simp only [List.nil_append, List.cons_append, replacerLoop_Url]
        rfl
    | c :: rest, hn =>
      have ihrest := ih rest.length (by simp at hn; omega) rest rfl
      simp only [List.cons_append, List.append_assoc] at ihrest ⊢
      rcases replacerLoop_cases c (rest ++ (pat ++ post)) with
        ⟨hc, h1⟩ | ⟨t, ht, hcu, h1⟩ | ⟨hc, hu, h1⟩
      · rw [h1, replacerLoop_replaced c rest hc, ihrest, List.cons_append]
      · match rest, ht, hn with
        | [], ht, _ =>
          rcases hpat with rfl | rfl <;> simp at ht
        | [a], ht, _ =>
          rcases hpat with rfl | rfl <;> simp at ht
        | a :: b :: rest2, ht, hn =>
          simp only [List.cons_append, List.cons.injEq] at ht
          obtain ⟨rfl, rfl, ht⟩ := ht
          have ih2 := ih rest2.length (by simp at hn; omega) rest2 rfl
          simp only [List.append_assoc] at ih2
          have hfull : replacerLoop replacer 0 (c :: 'r' :: 'l' :: rest2)
              = 'U' :: 'R' :: 'L' :: replacerLoop replacer 0 rest2 := by
            rcases hcu with rfl | rfl
            · exact replacerLoop_url rest2
            · exact replacerLoop_Url rest2
          rw [h1, ← ht, ih2, hfull]
          simp
      · have hu2 : ∀ t, rest = 'r' :: 'l' :: t → c ≠ 'u' ∧ c ≠ 'U' := by
          intro t ht
          exact hu (t ++ (pat ++ post)) (by simp [ht])
        rw [h1, replacerLoop_copy c rest hc hu2, ihrest, List.cons_append]

/-- C2: for every name that contains the substring "url" or the substring "Url", the
output of `goSym` contains the substring "URL"; moreover at every occurrence the replacer
writes "URL" where the occurrence stood (no other replacement reaches into it), and the
acronym survives the title-casing and the removal of spaces, so that the output is the
normalised text before the occurrence, then "URL", then the rest. -/
theorem goSym_contains_URL (U : UnicodeTables) (name : String)
    (h : "url".data <:+: name.data ∨ "Url".data <:+: name.data) :
    "URL".data <:+: (goSym U name).data
    ∧ ∀ pre pat post : List Char, (pat = "url".data ∨ pat = "Url".data) →
        name.data = pre ++ pat ++ post →
        replacerReplace replacer name.data
            = replacerReplace replacer pre ++ "URL".data ++ replacerReplace replacer post
          ∧ ∃ tail, (goSym U name).data = (goSym U (String.mk pre)).data ++ "URL".data ++ tail := by
  constructor
  · have hr : ['U', 'R', 'L'] <:+: replacerLoop replacer 0 name.data := by
      rcases h with ⟨pre, post, hs⟩ | ⟨pre, post, hs⟩
      · rw [← hs]; exact replacerLoop_contains_URL _ (Or.inl rfl) post pre
      · rw [← hs]; exact replacerLoop_contains_URL _ (Or.inr rfl) post pre
    simp only [goSym, goSymRunes_eq]
    exact filter_contains_URL _ (titleLoop_contains_URL U ' ' _ hr)
  · intro pre pat post hpat hname
    have hsplit := replacerLoop_split pat hpat post pre.length pre rfl
    refine ⟨by simpa [replacerReplace, hname] using hsplit, ?_⟩
    obtain ⟨q, hq⟩ := titleLoop_append U (replacerLoop replacer 0 pre)
      ('U' :: 'R' :: 'L' :: replacerLoop replacer 0 post) ' '
    refine ⟨(titleLoop U 'L' (replacerLoop replacer 0 post)).filter (fun c => c != ' '), ?_⟩
    have hURL : (['U', 'R', 'L'] : List Char).filter (fun c => c != ' ') = ['U', 'R', 'L'] := by
      decide
    simp only [goSym, goSymRunes_eq, hname, hsplit, hq, titleLoop_URL, List.filter_append]
    have : ('U' :: 'R' :: 'L' :: titleLoop U 'L' (replacerLoop replacer 0 post))
        = ['U', 'R', 'L'] ++ titleLoop U 'L' (replacerLoop replacer 0 post) := rfl
    rw [this, List.filter_append, hURL]
    simp

theorem goSym_contains_URL_witness :
    ("url".data <:+: "loadUrl(url)".data ∨ "Url".data <:+: "loadUrl(url)".data)
    ∧ ("URL".data <:+: (goSym asciiTables "loadUrl(url)").data
      ∧ ∀ pre pat post : List Char, (pat = "url".data ∨ pat = "Url".data) →
          "loadUrl(url)".data = pre ++ pat ++ post →
          replacerReplace replacer "loadUrl(url)".data
              = replacerReplace replacer pre ++ "URL".data ++ replacerReplace replacer post
            ∧ ∃ tail, (goSym asciiTables "loadUrl(url)").data
                = (goSym asciiTables (String.mk pre)).data ++ "URL".data ++ tail) :=
  ⟨Or.inl ⟨"loadUrl(".data, ")".data, by decide⟩,
    goSym_contains_URL asciiTables "loadUrl(url)" (Or.inl ⟨"loadUrl(".data, ")".data, by decide⟩)⟩

/-! ### When the output is an identifier -/

theorem isAsciiLetter_not_replaced (c : Char) (h : isAsciiLetter c = true) :
    c ∉ replacedChars := by
  simp only [isAsciiLetter, isAsciiLower, Bool.or_eq_true, Bool.and_eq_true,
    decide_eq_true_eq] at h
  exact not_replaced_of_toNat c (by omega) (by omega) (by omega)

theorem toUpper_isAsciiLetter (c : Char) (h : isAsciiLetter c = true) :
    isAsciiLetter c.toUpper = true := by
  have key : ∀ n : Nat, n ≤ 0x7F → isAsciiLetter (Char.ofNat n) = true →
      isAsciiLetter (Char.ofNat n).toUpper = true := by
    intro n hn
    interval_cases n <;> decide
  have := key c.toNat (isAsciiLetter_le c h)
  rw [Char.ofNat_toNat] at this
  exact this h

theorem toTitle_letter_digit_space (U : UnicodeTables) (c : Char)
    (h : isAsciiLetter c = true ∨ isAsciiDigit c = true ∨ c = ' ') :
    isAsciiLetter (toTitle U c) = true ∨ isAsciiDigit (toTitle U c) = true
      ∨ toTitle U c = ' ' := by
  rcases h with h | h | rfl
  · rw [toTitle_ascii U c (isAsciiLetter_le c h)]
    exact Or.inl (toUpper_isAsciiLetter c h)
  · have hb : 48 ≤ c.toNat ∧ c.toNat ≤ 57 := by simpa [isAsciiDigit] using h
    have : toTitle U c = c := by
      unfold toTitle
      rw [if_pos (by omega), if_neg (by omega)]
    rw [this]
    exact Or.inr (Or.inl h)
  · exact Or.inr (Or.inr rfl)

theorem replacerLoop_chars (s : List Char) :
    ∀ k, (∀ x ∈ s, isAsciiLetter x = true ∨ isAsciiDigit x = true ∨ x ∈ replacedChars) →
      ∀ x ∈ replacerLoop replacer k s,
        isAsciiLetter x = true ∨ isAsciiDigit x = true ∨ x = ' ' := by
  induction s with
  | nil => intro k _ x hx; simp [replacerLoop] at hx
  | cons c rest ih =>
    intro k hs x hx
    have hrest : ∀ x ∈ rest, isAsciiLetter x = true ∨ isAsciiDigit x = true
        ∨ x ∈ replacedChars := fun x hx => hs x (List.mem_cons_of_mem _ hx)
    match k, hx with
    | k + 1, hx =>
      rw [replacerLoop] at hx
      exact ih k hrest x hx
    | 0, hx =>
      rcases replacerLoop_cases c rest with ⟨_, h1⟩ | ⟨t, ht, _, h1⟩ | ⟨hc, _, h1⟩
      · rw [h1, List.mem_cons] at hx
        rcases hx with rfl | hx
        · exact Or.inr (Or.inr rfl)
        · exact ih 0 hrest x hx
      · rw [h1] at hx
        simp only [List.mem_cons] at hx
        rcases hx with rfl | rfl | rfl | hx
        · exact Or.inl (by decide)
        · exact Or.inl (by decide)
        · exact Or.inl (by decide)
        · have h2 : replacerLoop replacer 2 rest = replacerLoop replacer 0 t := by
            rw [ht]; simp [replacerLoop]
          exact ih 2 hrest x (h2 ▸ hx)
      · rw [h1, List.mem_cons] at hx
        rcases hx with rfl | hx
        · rcases hs x (List.mem_cons_self _ _) with h | h | h
          · exact Or.inl h
          · exact Or.inr (Or.inl h)
          · exact absurd h hc
        · exact ih 0 hrest x hx

theorem replacerLoop_leading_replaced (t : List Char) :
    ∀ pre : List Char, (∀ x ∈ pre, x ∈ replacedChars) →
      replacerLoop replacer 0 (pre ++ t)
        = List.replicate pre.length ' ' ++ replacerLoop replacer 0 t := by
  intro pre
  induction pre with
  | nil => intro _; rfl
  | cons c pre ih =>
    intro h
    rw [List.cons_append, replacerLoop_replaced c _ (h c (List.mem_cons_self _ _)),
      ih (fun x hx => h x (List.mem_cons_of_mem _ hx))]
    rfl

theorem replacerLoop_head_letter (c : Char) (post : List Char)
    (hc : isAsciiLetter c = true)
    (hpost : ∀ x ∈ post, isAsciiLetter x = true ∨ isAsciiDigit x = true
      ∨ x ∈ replacedChars) :
    ∃ c2 R, replacerLoop replacer 0 (c :: post) = c2 :: R ∧ isAsciiLetter c2 = true
      ∧ ∀ x ∈ R, isAsciiLetter x = true ∨ isAsciiDigit x = true ∨ x = ' ' := by
  have hall : ∀ x ∈ replacerLoop replacer 0 (c :: post),
      isAsciiLetter x = true ∨ isAsciiDigit x = true ∨ x = ' ' :=
    replacerLoop_chars (c :: post) 0 (by
      intro x hx
      rcases List.mem_cons.mp hx with rfl | hx
      · exact Or.inl hc
      · exact hpost x hx)
  rcases replacerLoop_cases c post with ⟨hr, _⟩ | ⟨t, _, _, h1⟩ | ⟨_, _, h1⟩
  · exact absurd hr (isAsciiLetter_not_replaced c hc)
  · rw [h1] at hall
    exact ⟨'U', _, h1, by decide, fun x hx => hall x (List.mem_cons_of_mem _ hx)⟩
  · rw [h1] at hall
    exact ⟨c, _, h1, hc, fun x hx => hall x (List.mem_cons_of_mem _ hx)⟩

theorem titleLoop_leading_spaces (U : UnicodeTables) (s : List Char) :
    ∀ (n : Nat) (p : Char), titleLoop U p (List.replicate n ' ' ++ s)
      = List.replicate n ' ' ++ titleLoop U (if n = 0 then p else ' ') s := by
  intro n
  induction n with
  | zero => intro p; rfl
  | succ n ih =>
    intro p
    rw [List.replicate_succ, List.cons_append, titleLoop_space, ih ' ']
    by_cases hn : n = 0 <;> simp [hn]

theorem titleLoop_chars (U : UnicodeTables) (s : List Char) :
    ∀ p, (∀ x ∈ s, isAsciiLetter x = true ∨ isAsciiDigit x = true ∨ x = ' ') →
      ∀ x ∈ titleLoop U p s, isAsciiLetter x = true ∨ isAsciiDigit x = true ∨ x = ' ' := by
  induction s with
  | nil => intro p _ x hx; simp [titleLoop] at hx
  | cons c rest ih =>
    intro p hs x hx
    rw [titleLoop, List.mem_cons] at hx
    rcases hx with rfl | hx
    · by_cases hp : isSeparator U p = true
      · rw [if_pos hp]
        exact toTitle_letter_digit_space U c (hs c (List.mem_cons_self _ _))
      · rw [if_neg hp]
        exact hs c (List.mem_cons_self _ _)
    · exact ih c (fun x hx => hs x (List.mem_cons_of_mem _ hx)) x hx

theorem isIdentLetter_of_ascii (U : UnicodeTables) (c : Char) (h : isAsciiLetter c = true) :
    isIdentLetter U c = true := by
  simp [isIdentLetter, isAsciiLetter_le c h, h]

theorem isIdentDigit_of_ascii (U : UnicodeTables) (c : Char) (h : isAsciiDigit c = true) :
    isIdentDigit U c = true := by
  have hb : 48 ≤ c.toNat ∧ c.toNat ≤ 57 := by simpa [isAsciiDigit] using h
  have h127 : c.toNat ≤ 0x7F := by omega
  simp [isIdentDigit, h127, h]

/-- C3 (as stated, refuted): the empty name is mapped to the empty string, the name
"3d-mode" to "3dMode", which starts with a digit, and the name "a,b" to "A,B", which
contains a comma; none of the three outputs is a valid identifier. -/
theorem goSym_not_always_identifier :
    goSym asciiTables "" = ""
    ∧ isValidIdentifier asciiTables (goSym asciiTables "").data = false
    ∧ goSym asciiTables "3d-mode" = "3dMode"
    ∧ isValidIdentifier asciiTables (goSym asciiTables "3d-mode").data = false
    ∧ goSym asciiTables "a,b" = "A,B"
    ∧ isValidIdentifier asciiTables (goSym asciiTables "a,b").data = false := by
  decide

/-- C3 (amended): for every raw name that consists only of ASCII letters, ASCII digits and
characters of the replaced set, and whose first character outside the replaced set exists
and is a letter, `goSym(name)` is a valid declaration identifier: it is non-empty, its
first character is a letter and every other character is a letter or a digit. -/
theorem goSym_valid_identifier (U : UnicodeTables) (pre : List Char) (c : Char)
    (post : List Char) (hpre : ∀ x ∈ pre, x ∈ replacedChars)
    (hc : isAsciiLetter c = true)
    (hpost : ∀ x ∈ post, isAsciiLetter x = true ∨ isAsciiDigit x = true
      ∨ x ∈ replacedChars) :
    isValidIdentifier U (goSym U (String.mk (pre ++ c :: post))).data = true := by
  obtain ⟨c2, R, hR, hc2, hRall⟩ := replacerLoop_head_letter c post hc hpost
  have hT := titleLoop_chars U R c2 hRall
  have hup := toUpper_ne_space c2 hc2
  have hfr : (List.replicate pre.length ' ').filter (fun c => c != ' ') = [] := by
    rw [List.filter_eq_nil_iff]
    intro a ha
    simp [(List.mem_replicate.mp ha).2]
  simp only [goSym, goSymRunes_eq, replacerLoop_leading_replaced _ pre hpre, hR,
    titleLoop_leading_spaces, titleLoop, List.filter_append, hfr, List.nil_append]
  have hsep : isSeparator U (if pre.length = 0 then ' ' else ' ') = true := by
    rw [ite_self]; rfl
  rw [if_pos hsep, toTitle_ascii U c2 (isAsciiLetter_le c2 hc2), List.filter_cons, if_pos hup,
    isValidIdentifier, Bool.and_eq_true, List.all_eq_true]
  refine ⟨isIdentLetter_of_ascii U _ (toUpper_isAsciiLetter c2 hc2), ?_⟩
  intro x hx
  obtain ⟨hx1, hx2⟩ := List.mem_filter.mp hx
  rw [Bool.or_eq_true]
  rcases hT x hx1 with h | h | h
  · exact Or.inl (isIdentLetter_of_ascii U x h)
  · exact Or.inr (isIdentDigit_of_ascii U x h)
  · subst h; simp at hx2

theorem goSym_valid_identifier_witness :
    (∀ x ∈ "(_".data, x ∈ replacedChars) ∧ isAsciiLetter 'x' = true
    ∧ (∀ x ∈ "2.url-id".data, isAsciiLetter x = true ∨ isAsciiDigit x = true
        ∨ x ∈ replacedChars)
    ∧ isValidIdentifier asciiTables
        (goSym asciiTables (String.mk ("(_".data ++ 'x' :: "2.url-id".data))).data = true :=
  ⟨by decide, by decide, by decide,
    goSym_valid_identifier asciiTables "(_".data 'x' "2.url-id".data (by decide) (by decide)
      (by decide)⟩

/-! ### Classification, basic types and events -/

theorem Base.Type_total (b : Base) : ∃ t, b.Type_ = some t := by
  unfold Base.Type_
  cases b.RawType with
  | none => exact ⟨_, rfl⟩
  | some v => cases v <;> simp [RawValue.kind, RawValue.assertString]

/-- C4 (defect): on the decoded raw type `["Function","Boolean"]` the source's `Type()`
does not return the first element `"Function"` but the empty string, so the Base is not
classified as Function: `isFunction()` is false and `isBasic()` is true.  The same holds
for every list: whatever its elements, `Type()` is the empty string. -/
theorem Base.Type_list_not_first_element :
    Base.Type_ { RawType := some (.slice [.string "Function", .string "Boolean"]) } = some ""
    ∧ Base.isFunction { RawType := some (.slice [.string "Function", .string "Boolean"]) }
        = some false
    ∧ Base.isBasic { RawType := some (.slice [.string "Function", .string "Boolean"]) }
        = some true
    ∧ ∀ (b : Base) (elems : List RawValue),
        Base.Type_ { b with RawType := some (.slice elems) } = some "" := by
  refine ⟨by decide, by decide, by decide, ?_⟩
  intro b elems
  simp [Base.Type_, RawValue.kind]

/-- C5: for every Base each of the six kind predicates returns, exactly one of them
returns true, `isBasic` is true exactly when `Type()` is none of "Module", "Class",
"Structure", "Function", "Object", and a Base whose raw type is absent is Basic. -/
theorem Base.kind_predicates_partition (b : Base) :
    ∃ t, b.Type_ = some t
      ∧ (∀ p ∈ [b.isModule, b.isClass, b.isStructure, b.isObject, b.isFunction, b.isBasic],
          p.isSome = true)
      ∧ [b.isModule, b.isClass, b.isStructure, b.isObject, b.isFunction,
          b.isBasic].count (some true) = 1
      ∧ (b.isBasic = some true ↔ t ∉ namedKinds)
      ∧ Base.isBasic { b with RawType := none } = some true := by
  obtain ⟨t, ht⟩ := Base.Type_total b
  refine ⟨t, ht, ?_, ?_, ?_, ?_⟩
  · simp [Base.isModule, Base.isClass, Base.isStructure, Base.isObject, Base.isFunction,
      Base.isBasic, ht]
    by_cases h1 : t = "Module" <;> by_cases h2 : t = "Class" <;>
      by_cases h3 : t = "Structure" <;> by_cases h4 : t = "Function" <;>
      by_cases h5 : t = "Object" <;> simp [h1, h2, h3, h4, h5]
  · by_cases h1 : t = "Module"
    · subst h1
      simp [Base.isModule, Base.isClass, Base.isStructure, Base.isObject, Base.isFunction,
        Base.isBasic, ht]
    by_cases h2 : t = "Class"
    · subst h2
      simp [Base.isModule, Base.isClass, Base.isStructure, Base.isObject, Base.isFunction,
        Base.isBasic, ht]
    by_cases h3 : t = "Structure"
    · subst h3
      simp [Base.isModule, Base.isClass, Base.isStructure, Base.isObject, Base.isFunction,
        Base.isBasic, ht]
    by_cases h4 : t = "Function"
    · subst h4
      simp [Base.isModule, Base.isClass, Base.isStructure, Base.isObject, Base.isFunction,
        Base.isBasic, ht]
    by_cases h5 : t = "Object"
    · subst h5
      simp [Base.isModule, Base.isClass, Base.isStructure, Base.isObject, Base.isFunction,
        Base.isBasic, ht]
    simp [Base.isModule, Base.isClass, Base.isStructure, Base.isObject, Base.isFunction,
      Base.isBasic, ht, h1, h2, h3, h4, h5]
  · simp [Base.isModule, Base.isClass, Base.isStructure, Base.isObject, Base.isFunction,
      Base.isBasic, ht, namedKinds]
    by_cases h1 : t = "Module" <;> by_cases h2 : t = "Class" <;>
      by_cases h3 : t = "Structure" <;> by_cases h4 : t = "Function" <;>
      by_cases h5 : t = "Object" <;> simp [h1, h2, h3, h4, h5]
  · rfl

/-- C6: `basicType` maps the recognised tags as the table of the specification states. -/
theorem basicType_table :
    basicType "" = "string" ∧ basicType "String" = "string"
    ∧ basicType "Integer" = "int64"
    ∧ basicType "Number" = "float64" ∧ basicType "Double" = "float64"
    ∧ basicType "Float" = "float64"
    ∧ basicType "Boolean" = "bool" := by
  decide

/-- C7 (as stated, refuted): the tag "INTEGER" is not among the tags the specification
lists as recognised, yet `basicType` does not return the opaque handle type for it: it
returns "int64". -/
theorem basicType_upper_case_not_opaque :
    "INTEGER" ∉ specRecognizedTags ∧ basicType "INTEGER" = "int64"
    ∧ basicType "INTEGER" ≠ "*js.Object" := by
  decide

/-- C7 (amended): every tag that is neither one of the listed tags nor one of the
upper-case spellings "INTEGER", "NUMBER", "DOUBLE", "FLOAT", "BOOLEAN" is mapped to the
opaque handle type "*js.Object". -/
theorem basicType_fallback (typ : String) (h : typ ∉ specRecognizedTags ++ upperCaseTags) :
    basicType typ = "*js.Object" := by
  simp [specRecognizedTags, upperCaseTags] at h
  simp [basicType, h]

theorem basicType_fallback_witness :
    "Object" ∉ specRecognizedTags ++ upperCaseTags ∧ basicType "Object" = "*js.Object" :=
  ⟨by decide, basicType_fallback "Object" (by decide)⟩

theorem Base.Type_malformed (b : Base) (h : malformedRawType b.RawType = true) :
    b.Type_ = some "" := by
  unfold Base.Type_
  cases hr : b.RawType with
  | none => simp [hr, malformedRawType] at h
  | some v =>
    cases v <;> simp [RawValue.kind]
    simp [hr, malformedRawType] at h

/-- C8 (as stated, refuted): for the malformed raw type that is the number 1, emission
succeeds but the primitive type written by `Base.decl` is "string", not "*js.Object". -/
theorem Base.decl_malformed_number_string :
    malformedRawType (some (.float64 "1")) = true
    ∧ (Base.decl asciiTables { Name := "size", RawType := some (.float64 "1") }
        { base := {} } none).map (fun w => w.out) = some "Size string"
    ∧ (Base.Type_ { Name := "size", RawType := some (.float64 "1") }).map basicType
        ≠ some "*js.Object" := by
  decide

/-- C8 (amended): for every Base whose raw type is malformed (neither absent, nor a
string, nor a non-empty list of strings) emission does not fail, `Type()` is the empty
tag, and `Base.decl` writes the normalised name, a space and the default primitive type
`basicType("")`, which is "string". -/
theorem Base.decl_malformed (U : UnicodeTables) (b : Base) (w : Context)
    (parent : Option Base) (h : malformedRawType b.RawType = true) :
    b.Type_ = some "" ∧ basicType "" = "string"
    ∧ Base.decl U b w parent
        = some { w with out := w.out ++ (Json2raw.goSym U b.Name ++ " " ++ "string") } := by
  have ht := Base.Type_malformed b h
  refine ⟨ht, by decide, ?_⟩
  have hs : basicType "" = "string" := by decide
  simp [Base.decl, Base.goSym, Base.isModule, ht, Context.Fprintf, hs]

theorem Base.decl_malformed_witness :
    malformedRawType (some (.slice [])) = true
    ∧ (Base.Type_ { Name := "size", RawType := some (.slice []) } = some ""
      ∧ basicType "" = "string"
      ∧ Base.decl asciiTables { Name := "size", RawType := some (.slice []) }
          { base := {} } none
        = some { base := {}, out := "" ++ (Json2raw.goSym asciiTables "size" ++ " " ++ "string") }) :=
  ⟨by decide,
    Base.decl_malformed asciiTables { Name := "size", RawType := some (.slice []) }
      { base := {} } none (by decide)⟩

theorem Base.goSym_total (U : UnicodeTables) (b : Base) : ∃ sym, b.goSym U = some sym := by
  obtain ⟨t, ht⟩ := Base.Type_total b
  by_cases h : t = "Module" <;> simp [Base.goSym, Base.isModule, ht, h]

/-- C9: for every Event that is not itself Module-typed, emitted into any Context,
`Event.decl` succeeds and writes `Evt<B><E> = "<L>"`, where `B` is the Block's display
name after `strings.Replace(_, "Module", "", 1)`, `E` is the normalised event name
`goSym(e.Name)` and the literal `L` is the raw name `e.Name` itself; for the Module block
"App" and the event "before-quit" the text is exactly `EvtAppBeforeQuit = "before-quit"`. -/
theorem Event.decl_text (U : UnicodeTables) (e : Event) (w : Context) (p : Option Base)
    (h : e.toBase.isModule = some false) :
    (∃ blockSym, w.base.goSym U = some blockSym
      ∧ Event.decl U e w p
        = some { w with out := w.out ++
            ("Evt" ++ String.mk (stringsReplace blockSym.data "Module".data [] 1)
              ++ Json2raw.goSym U e.Name ++ " = " ++ dquote ++ e.Name ++ dquote) })
    ∧ (Event.decl U { Name := "before-quit" }
        { base := { Name := "App", RawType := some (.string "Module") } } none).map
          (fun w => w.out)
        = some ("EvtAppBeforeQuit = " ++ dquote ++ "before-quit" ++ dquote) := by
  refine ⟨?_, rfl⟩
  obtain ⟨blockSym, hb⟩ := Base.goSym_total U w.base
  refine ⟨blockSym, hb, ?_⟩
  have he : e.toBase.goSym U = some (Json2raw.goSym U e.Name) := by
    simp [Base.goSym, h]
  simp [Event.decl, hb, he, Context.Fprintf]

theorem Event.decl_text_witness :
    Base.isModule { Name := "will-navigate", RawType := some (.string "Object") } = some false
    ∧ ((∃ blockSym,
        Base.goSym asciiTables { Name := "WebContents", RawType := some (.string "Class") }
          = some blockSym
        ∧ Event.decl asciiTables
            { Name := "will-navigate", RawType := some (.string "Object") }
            { base := { Name := "WebContents", RawType := some (.string "Class") } } none
          = some { base := { Name := "WebContents", RawType := some (.string "Class") },
                   out := "" ++
                    ("Evt" ++ String.mk (stringsReplace blockSym.data "Module".data [] 1)
                      ++ Json2raw.goSym asciiTables "will-navigate" ++ " = " ++ dquote
                      ++ "will-navigate" ++ dquote) })
      ∧ (Event.decl asciiTables { Name := "before-quit" }
          { base := { Name := "App", RawType := some (.string "Module") } } none).map
            (fun w => w.out)
          = some ("EvtAppBeforeQuit = " ++ dquote ++ "before-quit" ++ dquote)) :=
  ⟨by decide,
    Event.decl_text asciiTables { Name := "will-navigate", RawType := some (.string "Object") }
      { base := { Name := "WebContents", RawType := some (.string "Class") } } none
      (by decide)⟩

/-- C10 (defect): `Event.decl` removes the leftmost "Module" of the Block's display name,
not a trailing suffix.  The Class block "ModuleLoader" has the display name "ModuleLoader",
which does not end in "Module", yet its event "ready" is written as `EvtLoaderReady`; the
Module block "module-loader" has the display name "ModuleLoaderModule" and its event is
written as `EvtLoaderModuleReady`, the suffix kept and the inner "Module" removed. -/
theorem Event.decl_removes_leftmost_Module :
    Base.goSym asciiTables { Name := "ModuleLoader", RawType := some (.string "Class") }
        = some "ModuleLoader"
    ∧ (Event.decl asciiTables { Name := "ready" }
        { base := { Name := "ModuleLoader", RawType := some (.string "Class") } } none).map
          (fun w => w.out)
        = some ("EvtLoaderReady = " ++ dquote ++ "ready" ++ dquote)
    ∧ Base.goSym asciiTables { Name := "module-loader", RawType := some (.string "Module") }
        = some "ModuleLoaderModule"
    ∧ (Event.decl asciiTables { Name := "ready" }
        { base := { Name := "module-loader", RawType := some (.string "Module") } } none).map
          (fun w => w.out)
        = some ("EvtLoaderModuleReady = " ++ dquote ++ "ready" ++ dquote) := by
  decide

/-! ### Annotation, display names and class blocks -/

theorem Base.annotate_eq (b : Base) (w : Context) (parent : Option Base) :
    Base.annotate b w parent
      = some (if hasNonFunctionParent parent then w.Fprintf (sourceNameTag b.Name) else w) := by
  cases parent with
  | none => rfl
  | some par =>
    obtain ⟨t, ht⟩ := Base.Type_total par
    by_cases h : t = "Function"
    · simp [Base.annotate, Base.isFunction, hasNonFunctionParent, ht, h]
    · simp [Base.annotate, Base.isFunction, hasNonFunctionParent, ht, h, Context.Fprintf,
        sourceNameTag]

/-- The modelled `declSlice` tags the Property fields exactly as the annotation rule says,
because `annotate` does. -/
theorem declSliceProperties_tagged (U : UnicodeTables) (N : NameScheme)
    (parent : Option Base) (ps : List Property) :
    ∀ w, declSliceProperties U N ps w parent
      = taggedProperties U N (hasNonFunctionParent parent) ps w parent := by
  induction ps with
  | nil => intro w; rfl
  | cons p rest ih =>
    intro w
    simp only [declSliceProperties, taggedProperties, Base.annotate_eq, ih,
      Option.bind_eq_bind, Option.some_bind]

/-- C14: `Base.annotate` always returns; it writes the source-name tag with the Base's raw
name exactly when the field has a parent whose kind is not Function, and writes nothing
when the parent is nil or a Function.  Hence, with the modelled `declSlice`, the emitter of
every Module, Class, Structure or Object Block writes each of its Property fields followed
by the tag of the field's raw name, and the emitter of every Function Block writes its
Property fields without any tag; the Object Block "size" with the Integer property "width"
is written with the field `Width int64` and its tag, the Function Block without the tag. -/
theorem Base.annotate_tag (b : Base) (w : Context) (parent : Option Base) :
    Base.annotate b w parent
        = some (if hasNonFunctionParent parent then
            { w with out := w.out ++ sourceNameTag b.Name } else w)
    ∧ sourceNameTag "x" = String.mk [' ', Char.ofNat 96, 'j', 's', ':', Char.ofNat 34, 'x',
        Char.ofNat 34, Char.ofNat 96, ' ']
    ∧ (∀ par : Base,
        hasNonFunctionParent (some { par with RawType := some (.string "Module") }) = true
        ∧ hasNonFunctionParent (some { par with RawType := some (.string "Class") }) = true
        ∧ hasNonFunctionParent (some { par with RawType := some (.string "Structure") }) = true
        ∧ hasNonFunctionParent (some { par with RawType := some (.string "Object") }) = true
        ∧ hasNonFunctionParent (some { par with RawType := some (.string "Function") })
            = false)
    ∧ (∀ (U : UnicodeTables) (N : NameScheme) (blk : Block) (w0 : Context),
        Block.declModule U (specDeclSlice U N)
            { blk with RawType := some (.string "Module") } w0
          = Block.declModule U (taggedDeclSlice U N true)
            { blk with RawType := some (.string "Module") } w0
        ∧ Block.declClass U (specDeclSlice U N)
            { blk with RawType := some (.string "Class") } w0
          = Block.declClass U (taggedDeclSlice U N true)
            { blk with RawType := some (.string "Class") } w0
        ∧ Block.declOther U (specDeclSlice U N)
            { blk with RawType := some (.string "Structure") } w0
          = Block.declOther U (taggedDeclSlice U N true)
            { blk with RawType := some (.string "Structure") } w0
        ∧ Block.declOther U (specDeclSlice U N)
            { blk with RawType := some (.string "Object") } w0
          = Block.declOther U (taggedDeclSlice U N true)
            { blk with RawType := some (.string "Object") } w0
        ∧ Block.declOther U (specDeclSlice U N)
            { blk with RawType := some (.string "Function") } w0
          = Block.declOther U (taggedDeclSlice U N false)
            { blk with RawType := some (.string "Function") } w0)
    ∧ (Block.declOther asciiTables (specDeclSlice asciiTables plainNames) (widthBlock "Object")
          { base := (widthBlock "Object").toBase }).map (fun w1 => w1.out)
        = some ("\ntype Size struct \x7b\n\t*js.Object\n\tWidth int64" ++ sourceNameTag "width"
            ++ "\n\t\x7d\n")
    ∧ (Block.declOther asciiTables (specDeclSlice asciiTables plainNames)
          (widthBlock "Function") { base := (widthBlock "Function").toBase }).map
          (fun w1 => w1.out)
        = some "\ntype Size struct \x7b\n\t*js.Object\n\tWidth int64\n\t\x7d\n"
    ∧ (Block.declModule asciiTables (specDeclSlice asciiTables plainNames)
          (widthBlock "Module") { base := (widthBlock "Module").toBase }).map
          (fun w1 => w1.out)
        = some ("\ntype SizeModule struct \x7b\n\t*js.Object\n\tWidth int64"
            ++ sourceNameTag "width" ++ "\n\t\x7d\n")
    ∧ (Block.declClass asciiTables (specDeclSlice asciiTables plainNames)
          (widthBlock "Class") { base := (widthBlock "Class").toBase }).map
          (fun w1 => w1.out)
        = some ("\ntype Size struct \x7b\n\t*js.Object\n\tWidth int64"
            ++ sourceNameTag "width" ++ "\n\t\x7d\n") := by
  have hkinds : ∀ par : Base,
      hasNonFunctionParent (some { par with RawType := some (.string "Module") }) = true
      ∧ hasNonFunctionParent (some { par with RawType := some (.string "Class") }) = true
      ∧ hasNonFunctionParent (some { par with RawType := some (.string "Structure") }) = true
      ∧ hasNonFunctionParent (some { par with RawType := some (.string "Object") }) = true
      ∧ hasNonFunctionParent (some { par with RawType := some (.string "Function") })
          = false := fun par => by
    simp [hasNonFunctionParent, Base.Type_, RawValue.kind, RawValue.assertString]
  refine ⟨?_, by decide, hkinds, ?_, by decide, by decide, by decide, by decide⟩
  · rw [Base.annotate_eq]; rfl
  · intro U N blk w0
    obtain ⟨hM, hC, hS, hO, hF⟩ := hkinds blk.toBase
    refine ⟨?_, ?_, ?_, ?_, ?_⟩
    · simp only [Block.declModule, specDeclSlice, taggedDeclSlice,
        declSliceProperties_tagged, hM]
    · simp only [Block.declClass, specDeclSlice, taggedDeclSlice,
        declSliceProperties_tagged, hC]
    · simp only [Block.declOther, specDeclSlice, taggedDeclSlice,
        declSliceProperties_tagged, hS]
    · simp only [Block.declOther, specDeclSlice, taggedDeclSlice,
        declSliceProperties_tagged, hO]
    · simp only [Block.declOther, specDeclSlice, taggedDeclSlice,
        declSliceProperties_tagged, hF]

theorem String.append_ne_self_of_ne_empty (s t : String) (h : t ≠ "") : s ++ t ≠ s := by
  intro heq
  have hd := congrArg String.data heq
  rw [String.data_append] at hd
  have : t.data = [] := by simpa using hd
  exact h (String.ext this)

/-- C15: for every Base the display name `Base.goSym()` is `goSym(Name)` followed by
"Module" when the kind is Module and exactly `goSym(Name)` for every other kind; a Module
Base and a Class Base with the same raw name therefore have different display names. -/
theorem Base.goSym_module_suffix (U : UnicodeTables) (b : Base) :
    (∃ isMod, b.isModule = some isMod
      ∧ b.goSym U = some (if isMod then Json2raw.goSym U b.Name ++ "Module"
          else Json2raw.goSym U b.Name))
    ∧ (∀ (m c : Base) (name : String),
        Base.goSym U { m with Name := name, RawType := some (.string "Module") }
            = some (Json2raw.goSym U name ++ "Module")
        ∧ Base.goSym U { c with Name := name, RawType := some (.string "Class") }
            = some (Json2raw.goSym U name)
        ∧ Base.goSym U { m with Name := name, RawType := some (.string "Module") }
            ≠ Base.goSym U { c with Name := name, RawType := some (.string "Class") }) := by
  constructor
  · obtain ⟨t, ht⟩ := Base.Type_total b
    by_cases h : t = "Module" <;> simp [Base.goSym, Base.isModule, ht, h]
  · intro m c name
    have hm : Base.goSym U { m with Name := name, RawType := some (.string "Module") }
        = some (Json2raw.goSym U name ++ "Module") := by
      simp [Base.goSym, Base.isModule, Base.Type_, RawValue.kind, RawValue.assertString]
    have hc : Base.goSym U { c with Name := name, RawType := some (.string "Class") }
        = some (Json2raw.goSym U name) := by
      simp [Base.goSym, Base.isModule, Base.Type_, RawValue.kind, RawValue.assertString]
    refine ⟨hm, hc, ?_⟩
    rw [hm, hc]
    intro h
    exact String.append_ne_self_of_ne_empty _ "Module" (by decide) (Option.some.inj h)

/-- C16: the text `declClass` writes depends only on the Block's Base, InstanceEvents,
InstanceProperties and InstanceMethods: two Blocks that agree on these and start from the
same Context produce the same result, whatever their constructor, static methods,
instance name and module-scoped events, properties and methods are. -/
theorem Block.declClass_ignores_constructor_and_statics (U : UnicodeTables) (D : DeclSlice)
    (b1 b2 : Block) (w : Context) (hBase : b1.toBase = b2.toBase)
    (hEvents : b1.InstanceEvents = b2.InstanceEvents)
    (hProps : b1.InstanceProperties = b2.InstanceProperties)
    (hMethods : b1.InstanceMethods = b2.InstanceMethods) :
    Block.declClass U D b1 w = Block.declClass U D b2 w := by
  simp only [Block.declClass, hBase, hEvents, hProps, hMethods]

theorem Block.declClass_ignores_constructor_and_statics_witness :
    (Block.mk { Name := "Tray", RawType := some (.string "Class") } [] [] [] "tray"
        [{ Name := "click" }] [.mk { Name := "title" } [] [] none] [] none []).toBase
      = (Block.mk { Name := "Tray", RawType := some (.string "Class") }
          [{ Name := "gone" }] [] [{ Name := "destroy" }] "other"
          [{ Name := "click" }] [.mk { Name := "title" } [] [] none] []
          (some { Name := "Tray" }) [{ Name := "create" }]).toBase
    ∧ Block.declClass asciiTables (specDeclSlice asciiTables plainNames)
        (Block.mk { Name := "Tray", RawType := some (.string "Class") } [] [] [] "tray"
          [{ Name := "click" }] [.mk { Name := "title" } [] [] none] [] none [])
        { base := { Name := "Tray", RawType := some (.string "Class") } }
      = Block.declClass asciiTables (specDeclSlice asciiTables plainNames)
        (Block.mk { Name := "Tray", RawType := some (.string "Class") }
          [{ Name := "gone" }] [] [{ Name := "destroy" }] "other"
          [{ Name := "click" }] [.mk { Name := "title" } [] [] none] []
          (some { Name := "Tray" }) [{ Name := "create" }])
        { base := { Name := "Tray", RawType := some (.string "Class") } } :=
  ⟨rfl, Block.declClass_ignores_constructor_and_statics asciiTables
    (specDeclSlice asciiTables plainNames) _ _ _ rfl rfl rfl rfl⟩



/-! ### Properties and methods -/

theorem Base.isBasic_total (b : Base) : ∃ r, b.isBasic = some r := by
  obtain ⟨t, ht⟩ := Base.Type_total b
  simp only [Base.isBasic, Base.isModule, Base.isClass, Base.isStructure, Base.isFunction,
    Base.isObject, ht]
  by_cases h1 : t = "Module" <;> by_cases h2 : t = "Class" <;>
    by_cases h3 : t = "Structure" <;> by_cases h4 : t = "Function" <;>
    by_cases h5 : t = "Object" <;> simp [h1, h2, h3, h4, h5]

theorem Base.decl_total (U : UnicodeTables) (b : Base) (w : Context) (parent : Option Base) :
    ∃ w2, b.decl U w parent = some w2 := by
  obtain ⟨t, ht⟩ := Base.Type_total b
  obtain ⟨sym, hs⟩ := Base.goSym_total U b
  simp [Base.decl, ht, hs]

/-- `Property.decl` always returns, and the Property it leaves behind is the one it was
given unless the name was empty. -/
theorem Property.decl_named (U : UnicodeTables) (N : NameScheme) (p : Property) (w : Context)
    (parent : Option Base) (h : p.toBase.Name ≠ "") :
    ∃ w2, p.decl U N w parent = some (p, w2) := by
  obtain ⟨sym, hs⟩ := Base.goSym_total U p.toBase
  obtain ⟨r, hr⟩ := Base.isBasic_total p.toBase
  obtain ⟨w3, hw3⟩ := Base.decl_total U p.toBase w parent
  unfold Property.decl
  simp only [h, if_false]
  cases hv : p.PossibleValues.isSome with
  | true => simp [hs]
  | false =>
    cases r with
    | true => simp [hr, hw3]
    | false => simp [hr, hs]

theorem Method.declParameters_named (U : UnicodeTables) (N : NameScheme) (parent : Base)
    (ps : List Property) :
    ∀ w, (∀ q ∈ ps, q.toBase.Name ≠ "") →
      ∃ w2, Method.declParameters U N parent ps w = some (ps, w2) := by
  induction ps with
  | nil => intro w _; exact ⟨w, rfl⟩
  | cons p rest ih =>
    intro w h
    obtain ⟨w1, h1⟩ := Property.decl_named U N p w (some parent) (h p (List.mem_cons_self _ _))
    obtain ⟨w2, h2⟩ := ih (w1.Fprintf ",") (fun q hq => h q (List.mem_cons_of_mem _ hq))
    exact ⟨w2, by simp [Method.declParameters, h1, h2]⟩

/-- C13 (as stated, refuted): a Property whose name is empty comes out of `Property.decl`
with the name "obj"; the same holds for an unnamed parameter after `Method.decl`. -/
theorem Property.decl_renames_unnamed :
    (Property.mk {} [] [] none).toBase.Name = ""
    ∧ (Property.decl asciiTables plainNames (.mk {} [] [] none) { base := {} } none).map
        (fun r => r.1.toBase.Name) = some "obj"
    ∧ (Method.decl asciiTables plainNames
        { Name := "focus", Parameters := [.mk {} [] [] none] } { base := {} } none).map
        (fun r => r.1.Parameters.map (fun q => q.toBase.Name)) = some ["obj"] := by
  decide

/-- C13 (amended): for every Property whose name is not empty, `Property.decl` returns
and leaves the Property as it was; for every Method whose parameters and return all have
a non-empty name, `Method.decl` returns and leaves the Method as it was. -/
theorem Property.decl_frame (U : UnicodeTables) (N : NameScheme) (p : Property)
    (m : Method) (w : Context) (parent : Option Base) (hp : p.toBase.Name ≠ "")
    (hm : ∀ q ∈ m.Parameters, q.toBase.Name ≠ "")
    (hr : ∀ r ∈ m.Return, r.toBase.Name ≠ "") :
    (∃ w2, p.decl U N w parent = some (p, w2))
    ∧ (∃ w2, m.decl U N w parent = some (m, w2)) := by
  refine ⟨Property.decl_named U N p w parent hp, ?_⟩
  obtain ⟨sym, hs⟩ := Base.goSym_total U m.toBase
  obtain ⟨w1, h1⟩ := Method.declParameters_named U N m.toBase m.Parameters
    (w.Fprintf (sym ++ " func(")) hm
  unfold Method.decl
  cases hret : m.Return with
  | none =>
    simp only [hs, h1, hret, Option.bind_eq_bind, Option.some_bind, Option.pure_def]
    cases m
    simp_all
  | some r =>
    obtain ⟨w2, h2⟩ := Property.decl_named U N r ((w1.Fprintf ")").Fprintf "(")
      (some m.toBase) (hr r (by simp [hret]))
    simp only [hs, h1, hret, h2, Option.bind_eq_bind, Option.some_bind, Option.pure_def]
    cases m
    simp_all

theorem Property.decl_frame_witness :
    (Property.mk { Name := "title" } [] [] none).toBase.Name ≠ ""
    ∧ ((∃ w2, Property.decl asciiTables plainNames (.mk { Name := "title" } [] [] none)
          { base := {} } none = some (.mk { Name := "title" } [] [] none, w2))
      ∧ (∃ w2, Method.decl asciiTables plainNames
          { Name := "focus", Parameters := [.mk { Name := "id" } [] [] none] }
          { base := {} } none
          = some ({ Name := "focus", Parameters := [.mk { Name := "id" } [] [] none] }, w2))) :=
  ⟨by decide,
    Property.decl_frame asciiTables plainNames (.mk { Name := "title" } [] [] none)
      { Name := "focus", Parameters := [.mk { Name := "id" } [] [] none] } { base := {} } none
      (by decide) (by simp [Property.toBase]) (by simp)⟩


theorem Base.isModule_of_isBasic (b : Base) (h : b.isBasic = some true) :
    b.isModule = some false := by
  obtain ⟨t, ht⟩ := Base.Type_total b
  by_cases h1 : t = "Module"
  · simp [Base.isBasic, Base.isModule, ht, h1] at h
  · simp [Base.isModule, ht, h1]

theorem Property.isPlain_spec (p : Property) (h : p.isPlain = true) :
    p.toBase.Name ≠ "" ∧ p.PossibleValues.isSome = false ∧ p.toBase.isBasic = some true := by
  simp only [Property.isPlain, Bool.and_eq_true, bne_iff_ne, ne_eq, beq_iff_eq] at h
  refine ⟨h.1.1, ?_, h.2⟩
  cases hv : p.PossibleValues <;> simp_all

theorem Property.decl_plain_field (U : UnicodeTables) (N : NameScheme) (p : Property) (w : Context)
    (parent : Option Base) (h : p.isPlain = true) :
    p.decl U N w parent = some (p, { w with out := w.out ++ plainField U p }) := by
  obtain ⟨hn, hv, hb⟩ := Property.isPlain_spec p h
  obtain ⟨t, ht⟩ := Base.Type_total p.toBase
  have hm := Base.isModule_of_isBasic p.toBase hb
  unfold Property.decl
  simp [hn, hv, hb, Base.decl, Base.goSym, hm, ht, Context.Fprintf, plainField]

theorem String.append_assoc3 (a b c : String) : a ++ b ++ c = a ++ (b ++ c) := by
  apply String.ext
  simp [String.data_append]

theorem Method.declParameters_plain (U : UnicodeTables) (N : NameScheme) (parent : Base)
    (ps : List Property) :
    ∀ w, (∀ q ∈ ps, q.isPlain = true) →
      Method.declParameters U N parent ps w
        = some (ps,
            { w with
              out := w.out ++ concatStrings (ps.map (fun p => plainField U p ++ ",")) }) := by
  induction ps with
  | nil =>
    intro w _
    have : w.out ++ "" = w.out := String.ext (by simp [String.data_append])
    simp [Method.declParameters, concatStrings, this]
  | cons p rest ih =>
    intro w h
    have h1 := Property.decl_plain_field U N p w (some parent) (h p (List.mem_cons_self _ _))
    have h2 := ih (({ w with out := w.out ++ plainField U p } : Context).Fprintf ",")
      (fun q hq => h q (List.mem_cons_of_mem _ hq))
    simp only [Context.Fprintf, String.append_assoc3] at h1 h2
    simp only [Method.declParameters, h1, h2, Option.bind_eq_bind, Option.some_bind,
      Option.pure_def, Context.Fprintf, List.map_cons, concatStrings, String.append_assoc3]

/-- C11: for every Method whose parameters and optional Return are named Basic properties
without PossibleValues, `Method.decl` returns and writes exactly the display name,
" func(", each parameter in schema order as `goSym(name) basicType(type),`, then ")", and
then `(goSym(name) basicType(type))` for the Return exactly when there is one; with no
parameters and no Return the text is the display name followed by " func()".  No
source-name tag is part of the text. -/
theorem Method.decl_plain (U : UnicodeTables) (N : NameScheme) (m : Method) (w : Context)
    (parent : Option Base) (hps : ∀ p ∈ m.Parameters, p.isPlain = true)
    (hr : ∀ r ∈ m.Return, r.isPlain = true) :
    ∃ sym, m.toBase.goSym U = some sym
      ∧ Method.decl U N m w parent = some (m, { w with out := w.out ++ methodText U sym m })
      ∧ methodText U sym { m with Parameters := [], Return := none } = sym ++ " func()" := by
  obtain ⟨sym, hs⟩ := Base.goSym_total U m.toBase
  refine ⟨sym, hs, ?_, ?_⟩
  · have h1 := Method.declParameters_plain U N m.toBase m.Parameters
      (w.Fprintf (sym ++ " func(")) hps
    unfold Method.decl
    simp only [Context.Fprintf, String.append_assoc3] at h1
    cases hret : m.Return with
    | none =>
      have hp : (")" : String) ++ "" = ")" := by decide
      simp only [hs, h1, hret, Option.bind_eq_bind, Option.some_bind, Option.pure_def,
        Context.Fprintf, methodText, String.append_assoc3, hp]
      cases m
      simp_all
    | some r =>
      have h2 := fun w0 => Property.decl_plain_field U N r w0 (some m.toBase) (hr r (by simp [hret]))
      simp only [hs, h1, hret, h2, Option.bind_eq_bind, Option.some_bind, Option.pure_def,
        Context.Fprintf, methodText, String.append_assoc3]
      cases m
      simp_all
  · have : (")" : String) ++ "" = ")" := by decide
    simp [methodText, concatStrings, String.append_assoc3, this]

theorem Method.decl_plain_witness :
    (∀ p ∈ isVisibleMethod.Parameters, p.isPlain = true)
    ∧ (∀ r ∈ isVisibleMethod.Return, r.isPlain = true)
    ∧ (∃ sym, Base.goSym asciiTables isVisibleMethod.toBase = some sym
      ∧ Method.decl asciiTables plainNames isVisibleMethod { base := {} } none
        = some (isVisibleMethod,
            { base := {}, out := "" ++ methodText asciiTables sym isVisibleMethod })
      ∧ methodText asciiTables sym { isVisibleMethod with Parameters := [], Return := none }
        = sym ++ " func()") :=
  ⟨by decide, by decide,
    Method.decl_plain asciiTables plainNames isVisibleMethod { base := {} } none
      (by decide) (by decide)⟩



/-! ### The file driver -/

/-- C12 (defect): when `newContext` returns an error for a Block, `ApiFile.decl` logs it
and goes on with the same Block.  With an error beside a usable Context the Block "Tray"
is still emitted (`declOther`, `declNewTypes`, `Close` are called for it) before the next
Block; with an error beside a nil Context `declOther` is still called for it, the write
through the nil Context panics and the later Block "App" is never processed. -/
theorem ApiFile.decl_does_not_skip_failed_block :
    ApiFile.decl asciiTables (specDeclSlice asciiTables plainNames) (registryFailingCtx "Tray")
        [{ Name := "Tray", RawType := some (.string "Object") },
         { Name := "App", RawType := some (.string "Module") }]
      = ([Call.log "Processing Tray", Call.newContext "Tray",
          Call.log "Tray open: permission denied",
          Call.declOther "Tray", Call.declNewTypes "Tray", Call.Close "Tray",
          Call.log "Processing App", Call.newContext "App",
          Call.declModule "App", Call.declNewTypes "App", Call.Close "App"], some ())
    ∧ ApiFile.decl asciiTables (specDeclSlice asciiTables plainNames)
        (registryFailingNil "Tray")
        [{ Name := "Tray", RawType := some (.string "Object") },
         { Name := "App", RawType := some (.string "Module") }]
      = ([Call.log "Processing Tray", Call.newContext "Tray",
          Call.log "Tray open: permission denied",
          Call.declOther "Tray"], none) := by
  decide


/-! ### The registry's names -/

theorem digitChar_toNat (d : Nat) (h : d < 10) : (Char.ofNat (48 + d)).toNat - 48 = d := by
  interval_cases d <;> rfl

theorem ordinalText_injective (a b : Nat) (h : ordinalText a = ordinalText b) : a = b := by
  have hd : (Nat.digits 10 a).reverse.map (fun d => Char.ofNat (48 + d))
      = (Nat.digits 10 b).reverse.map (fun d => Char.ofNat (48 + d)) := by
    have := congrArg String.data h
    simpa [ordinalText] using this
  have back : ∀ n : Nat, ((Nat.digits 10 n).reverse.map (fun d => Char.ofNat (48 + d))).map
      (fun c => c.toNat - 48) = (Nat.digits 10 n).reverse := by
    intro n
    rw [List.map_map]
    conv_rhs => rw [← List.map_id (Nat.digits 10 n).reverse]
    apply List.map_congr_left
    intro d hd
    exact digitChar_toNat d (Nat.digits_lt_base (by norm_num) (List.mem_reverse.mp hd))
  have hrev : (Nat.digits 10 a).reverse = (Nat.digits 10 b).reverse := by
    rw [← back a, ← back b, hd]
  exact Nat.digits.injective 10 (List.reverse_injective hrev)

theorem ordinalText_ne_empty (k : Nat) (h : k ≠ 0) : ordinalText k ≠ "" := by
  intro he
  have hd : (Nat.digits 10 k).reverse.map (fun d => Char.ofNat (48 + d)) = [] := by
    simpa [ordinalText] using congrArg String.data he
  have : Nat.digits 10 k = [] := by simpa using hd
  exact h (Nat.digits_eq_nil_iff_eq_zero.mp this)

theorem String.append_left_cancel (s a b : String) (h : s ++ a = s ++ b) : a = b := by
  have hd := congrArg String.data h
  rw [String.data_append, String.data_append] at hd
  exact String.ext (List.append_cancel_left hd)

theorem ordinalName_injective (cand : String) (a b : Nat)
    (h : ordinalName cand a = ordinalName cand b) : a = b := by
  unfold ordinalName at h
  by_cases ha : a = 0 <;> by_cases hb : b = 0
  · rw [ha, hb]
  · rw [if_pos ha, if_neg hb] at h
    exact absurd h.symm (String.append_ne_self_of_ne_empty cand _ (ordinalText_ne_empty b hb))
  · rw [if_neg ha, if_pos hb] at h
    exact absurd h (String.append_ne_self_of_ne_empty cand _ (ordinalText_ne_empty a ha))
  · rw [if_neg ha, if_neg hb] at h
    exact ordinalText_injective a b (String.append_left_cancel cand _ _ h)

/-- Among the first `names.length + 1` spellings of a candidate, one is not registered. -/
theorem exists_unregistered_spelling (names : List String) (cand : String) :
    ∃ k ∈ List.range (names.length + 1), ordinalName cand k ∉ names := by
  by_contra hcon
  simp only [not_exists, not_and, not_not] at hcon
  have hsub : (List.range (names.length + 1)).map (ordinalName cand) ⊆ names := by
    intro s hs
    obtain ⟨k, hk, rfl⟩ := List.mem_map.mp hs
    exact hcon k hk
  have hnodup : ((List.range (names.length + 1)).map (ordinalName cand)).Nodup :=
    (List.nodup_range _).map (fun a b h => ordinalName_injective cand a b h)
  have hle := (List.subperm_of_subset hnodup hsub).length_le
  simp at hle

/-- The name the registry allocates is borne by no registered declaration. -/
theorem freshName_not_mem (names : List String) (cand : String) :
    freshName names cand ∉ names := by
  unfold freshName
  cases hf : (List.range (names.length + 1)).find?
      (fun k => !names.contains (ordinalName cand k)) with
  | none =>
    obtain ⟨k, hk, hnot⟩ := exists_unregistered_spelling names cand
    have := List.find?_eq_none.mp hf k hk
    simp [hnot] at this
  | some k =>
    have := List.find?_some hf
    simpa using this


theorem Property.named_fields (p : Property) :
    p.named.PossibleValues = p.PossibleValues ∧ p.named.toBase.Type_ = p.toBase.Type_ := by
  cases p with
  | mk b ps qs vs =>
    by_cases h : b.Name = "" <;>
      simp [Property.named, Property.toBase, Property.setName, Property.PossibleValues, h,
        Base.Type_]

theorem Property.decl_object (U : UnicodeTables) (N : NameScheme) (p : Property) (w : Context)
    (parent : Option Base) (hv : p.PossibleValues.isSome = false)
    (ht : p.toBase.Type_ = some "Object") :
    p.decl U N w parent
      = some (p.named, (w.newType N p.named parent).2.Fprintf
          (goSym U p.named.toBase.Name ++ " " ++ (w.newType N p.named parent).1)) := by
  obtain ⟨hnv, hnt⟩ := Property.named_fields p
  have hv2 : p.named.PossibleValues.isSome = false := by rw [hnv]; exact hv
  have ht2 : p.named.toBase.Type_ = some "Object" := by rw [hnt]; exact ht
  have hb : p.named.toBase.isBasic = some false := by
    simp [Base.isBasic, Base.isModule, Base.isClass, Base.isStructure, Base.isFunction,
      Base.isObject, ht2]
  have hs : p.named.toBase.goSym U = some (goSym U p.named.toBase.Name) := by
    simp [Base.goSym, Base.isModule, ht2]
  have hq : (if p.toBase.Name = "" then p.setName "obj" else p) = p.named := rfl
  unfold Property.decl
  simp only [hq]
  simp [hv2, hb, hs]

theorem Context.newType_result (N : NameScheme) (w : Context) (p : Property)
    (parent : Option Base) :
    (w.newType N p parent).1 ∉ w.names
    ∧ (w.newType N p parent).2.pending
        = w.pending ++ [Pending.type (w.newType N p parent).1 p parent] := by
  exact ⟨freshName_not_mem _ _, rfl⟩

/-- C18: within one Context, two Object-typed Properties declared one after the other
through `Property.decl` both reach `newType`, each allocation is registered, and the two
names `newType` returns differ (as they do whether or not the member sets differ);
registered names that were pairwise distinct stay so. -/
theorem Property.decl_type_names_differ (U : UnicodeTables) (N : NameScheme)
    (p1 p2 : Property) (w : Context) (parent1 parent2 : Option Base)
    (hv1 : p1.PossibleValues.isSome = false) (ht1 : p1.toBase.Type_ = some "Object")
    (hv2 : p2.PossibleValues.isSome = false) (ht2 : p2.toBase.Type_ = some "Object") :
    ∃ w1 w2 n1 n2,
      p1.decl U N w parent1 = some (p1.named, w1)
      ∧ p2.decl U N w1 parent2 = some (p2.named, w2)
      ∧ (w.newType N p1.named parent1).1 = n1
      ∧ (w1.newType N p2.named parent2).1 = n2
      ∧ w1.pending = w.pending ++ [Pending.type n1 p1.named parent1]
      ∧ w2.pending = w1.pending ++ [Pending.type n2 p2.named parent2]
      ∧ n1 ≠ n2
      ∧ (w.names.Nodup → w2.names.Nodup) := by
  have h1 := Property.decl_object U N p1 w parent1 hv1 ht1
  obtain ⟨hf1, hp1⟩ := Context.newType_result N w p1.named parent1
  generalize hw1 : (w.newType N p1.named parent1).2.Fprintf
    (goSym U p1.named.toBase.Name ++ " " ++ (w.newType N p1.named parent1).1) = w1 at h1
  have hpend1 : w1.pending = w.pending ++
      [Pending.type (w.newType N p1.named parent1).1 p1.named parent1] := by
    rw [← hw1]; exact hp1
  have h2 := Property.decl_object U N p2 w1 parent2 hv2 ht2
  obtain ⟨hf2, hp2⟩ := Context.newType_result N w1 p2.named parent2
  generalize hw2 : (w1.newType N p2.named parent2).2.Fprintf
    (goSym U p2.named.toBase.Name ++ " " ++ (w1.newType N p2.named parent2).1) = w2 at h2
  have hpend2 : w2.pending = w1.pending ++
      [Pending.type (w1.newType N p2.named parent2).1 p2.named parent2] := by
    rw [← hw2]; exact hp2
  have hnames1 : w1.names = w.names ++ [(w.newType N p1.named parent1).1] := by
    simp [Context.names, hpend1, Pending.name]
  have hnames2 : w2.names = w1.names ++ [(w1.newType N p2.named parent2).1] := by
    simp [Context.names, hpend2, Pending.name]
  refine ⟨w1, w2, _, _, h1, h2, rfl, rfl, hpend1, hpend2, ?_, ?_⟩
  · intro heq
    apply hf2
    rw [hnames1, ← heq]
    simp
  · intro hnd
    have hnd1 : w1.names.Nodup := by
      rw [hnames1]
      exact List.Nodup.append hnd (List.nodup_singleton _) (by simpa using hf1)
    rw [hnames2]
    exact List.Nodup.append hnd1 (List.nodup_singleton _) (by simpa using hf2)

theorem Property.decl_type_names_differ_witness :
    sizeProperty.PossibleValues.isSome = false
    ∧ sizeProperty.toBase.Type_ = some "Object"
    ∧ scaleProperty.PossibleValues.isSome = false
    ∧ scaleProperty.toBase.Type_ = some "Object"
    ∧ ∃ w1 w2 n1 n2,
      sizeProperty.decl asciiTables plainNames { base := { Name := "Screen" } }
          (some { Name := "Screen" }) = some (sizeProperty.named, w1)
      ∧ scaleProperty.decl asciiTables plainNames w1 (some { Name := "Screen" })
          = some (scaleProperty.named, w2)
      ∧ (Context.newType plainNames { base := { Name := "Screen" } } sizeProperty.named
          (some { Name := "Screen" })).1 = n1
      ∧ (w1.newType plainNames scaleProperty.named (some { Name := "Screen" })).1 = n2
      ∧ w1.pending = ({ base := { Name := "Screen" } } : Context).pending
          ++ [Pending.type n1 sizeProperty.named (some { Name := "Screen" })]
      ∧ w2.pending = w1.pending
          ++ [Pending.type n2 scaleProperty.named (some { Name := "Screen" })]
      ∧ n1 ≠ n2
      ∧ (({ base := { Name := "Screen" } } : Context).names.Nodup → w2.names.Nodup) :=
  ⟨by decide, by decide, by decide, by decide,
    Property.decl_type_names_differ asciiTables plainNames sizeProperty scaleProperty
      { base := { Name := "Screen" } } (some { Name := "Screen" }) (some { Name := "Screen" })
      (by decide) (by decide) (by decide) (by decide)⟩



/-! ### The replacer, position by position -/

/-- Induction along the scan of the replacer. -/
theorem replacer_induction (motive : List Char → List Char → Prop)
    (nil : motive [] [])
    (replaced : ∀ c rest, c ∈ replacedChars → motive rest (replacerLoop replacer 0 rest) →
      motive (c :: rest) (' ' :: replacerLoop replacer 0 rest))
    (url : ∀ c t, (c = 'u' ∨ c = 'U') → motive t (replacerLoop replacer 0 t) →
      motive (c :: 'r' :: 'l' :: t) ('U' :: 'R' :: 'L' :: replacerLoop replacer 0 t))
    (copy : ∀ c rest, c ∉ replacedChars → (∀ t, rest = 'r' :: 'l' :: t → c ≠ 'u' ∧ c ≠ 'U') →
      motive rest (replacerLoop replacer 0 rest) →
      motive (c :: rest) (c :: replacerLoop replacer 0 rest)) :
    ∀ s, motive s (replacerLoop replacer 0 s) := by
  have key : ∀ (n : Nat) (s : List Char), s.length = n →
      motive s (replacerLoop replacer 0 s) := by
    intro n
    induction n using Nat.strong_induction_on with
    | _ n ih =>
      intro s hn
      match s, hn with
      | [], _ => simpa [replacerLoop] using nil
      | c :: rest, hn =>
        have ihrest := ih rest.length (by simp at hn; omega) rest rfl
        rcases replacerLoop_cases c rest with ⟨hc, h1⟩ | ⟨t, ht, hcu, h1⟩ | ⟨hc, hu, h1⟩
        · rw [h1]; exact replaced c rest hc ihrest
        · subst ht
          rw [h1]
          exact url c t hcu (ih t.length (by simp at hn; omega) t rfl)
        · rw [h1]; exact copy c rest hc hu ihrest
  intro s
  exact key s.length s rfl

theorem replacerLoop_mem (s : List Char) :
    ∀ c ∈ replacerLoop replacer 0 s,
      c = ' ' ∨ (c ∉ replacedChars ∧ (c ∈ s ∨ c ∈ ['U', 'R', 'L'])) := by
  refine replacer_induction
    (fun s r => ∀ c ∈ r, c = ' ' ∨ (c ∉ replacedChars ∧ (c ∈ s ∨ c ∈ ['U', 'R', 'L'])))
    ?_ ?_ ?_ ?_ s
  · intro c hc; simp at hc
  · intro c rest _ ih x hx
    rcases List.mem_cons.mp hx with rfl | hx
    · exact Or.inl rfl
    · rcases ih x hx with h | ⟨h1, h2 | h2⟩
      · exact Or.inl h
      · exact Or.inr ⟨h1, Or.inl (List.mem_cons_of_mem _ h2)⟩
      · exact Or.inr ⟨h1, Or.inr h2⟩
  · intro c t _ ih x hx
    simp only [List.mem_cons] at hx
    rcases hx with rfl | rfl | rfl | hx
    · exact Or.inr ⟨by decide, Or.inr (by simp)⟩
    · exact Or.inr ⟨by decide, Or.inr (by simp)⟩
    · exact Or.inr ⟨by decide, Or.inr (by simp)⟩
    · rcases ih x hx with h | ⟨h1, h2 | h2⟩
      · exact Or.inl h
      · exact Or.inr ⟨h1, Or.inl (by simp [h2])⟩
      · exact Or.inr ⟨h1, Or.inr h2⟩
  · intro c rest hc _ ih x hx
    rcases List.mem_cons.mp hx with rfl | hx
    · exact Or.inr ⟨hc, Or.inl (List.mem_cons_self _ _)⟩
    · rcases ih x hx with h | ⟨h1, h2 | h2⟩
      · exact Or.inl h
      · exact Or.inr ⟨h1, Or.inl (List.mem_cons_of_mem _ h2)⟩
      · exact Or.inr ⟨h1, Or.inr h2⟩

theorem startsUrl_iff (c : Char) (rest : List Char) :
    startsUrl (c :: rest) = true ↔ (c = 'u' ∨ c = 'U') ∧ ∃ t, rest = 'r' :: 'l' :: t := by
  constructor
  · intro h
    simp only [startsUrl, List.isPrefixOf, Bool.or_eq_true, Bool.and_eq_true, beq_iff_eq] at h
    rcases h with ⟨h1, h2⟩ | ⟨h1, h2⟩
    · exact ⟨Or.inl h1.symm, isPrefixOf_rl rest (by simpa [List.isPrefixOf] using h2)⟩
    · exact ⟨Or.inr h1.symm, isPrefixOf_rl rest (by simpa [List.isPrefixOf] using h2)⟩
  · rintro ⟨hc, t, rfl⟩
    rcases hc with rfl | rfl <;> simp [startsUrl, List.isPrefixOf]

theorem startsUrl_false_iff (c : Char) (rest : List Char) :
    startsUrl (c :: rest) = false ↔ ∀ t, rest = 'r' :: 'l' :: t → c ≠ 'u' ∧ c ≠ 'U' := by
  rw [← Bool.not_eq_true, startsUrl_iff]
  constructor
  · intro h t ht
    constructor
    · intro hc; exact h ⟨Or.inl hc, t, ht⟩
    · intro hc; exact h ⟨Or.inr hc, t, ht⟩
  · rintro h ⟨hc, t, ht⟩
    rcases hc with hc | hc
    · exact (h t ht).1 hc
    · exact (h t ht).2 hc

/-- The replacer's output starts with "rl" only if its input does. -/
theorem replacerLoop_head_rl (s g : List Char)
    (h : replacerLoop replacer 0 s = 'r' :: 'l' :: g) : ∃ t, s = 'r' :: 'l' :: t := by
  match s, h with
  | [], h => simp [replacerLoop] at h
  | c :: rest, h =>
    rcases replacerLoop_cases c rest with ⟨_, h1⟩ | ⟨t, _, _, h1⟩ | ⟨_, _, h1⟩
    · rw [h1] at h; simp at h
    · rw [h1] at h; simp at h
    · rw [h1] at h
      simp only [List.cons.injEq] at h
      obtain ⟨rfl, h⟩ := h
      match rest, h with
      | [], h => simp [replacerLoop] at h
      | c2 :: rest2, h =>
        rcases replacerLoop_cases c2 rest2 with ⟨_, h2⟩ | ⟨t, _, _, h2⟩ | ⟨_, _, h2⟩
        · rw [h2] at h; simp at h
        · rw [h2] at h; simp at h
        · rw [h2] at h
          simp only [List.cons.injEq] at h
          exact ⟨rest2, by rw [h.1]⟩

theorem replacerLoop_urlFree (s : List Char) : urlFree (replacerLoop replacer 0 s) = true := by
  refine replacer_induction (fun _ r => urlFree r = true) rfl ?_ ?_ ?_ s
  · intro c rest _ ih
    simp [urlFree, startsUrl, List.isPrefixOf, ih]
  · intro c t _ ih
    simp only [urlFree, ih, Bool.and_true, Bool.and_eq_true, Bool.not_eq_true']
    refine ⟨?_, ?_, ?_⟩
    · simp [startsUrl, List.isPrefixOf]
    · simp [startsUrl, List.isPrefixOf]
    · rw [startsUrl_false_iff]
      intro _ _
      exact ⟨by decide, by decide⟩
  · intro c rest _ hu ih
    simp only [urlFree, ih, Bool.and_true, Bool.not_eq_true']
    rw [startsUrl_false_iff]
    intro g hg
    obtain ⟨t, ht⟩ := replacerLoop_head_rl rest g hg
    exact hu t ht


/-! ### Title-casing and space removal, position by position -/

theorem toUpper_facts (n : Nat) (hn : n ≤ 0x7F) :
    ((Char.ofNat n ∉ replacedChars → (Char.ofNat n).toUpper ∉ replacedChars)
    ∧ (Char.ofNat n).toUpper ≠ 'r' ∧ (Char.ofNat n).toUpper ≠ 'l'
    ∧ (Char.ofNat n).toUpper ≠ 'u'
    ∧ ((Char.ofNat n).toUpper = 'U' → Char.ofNat n = 'u' ∨ Char.ofNat n = 'U'))
    ∧ (Char.ofNat n).toUpper.toUpper = (Char.ofNat n).toUpper
    ∧ (Char.ofNat n).toUpper.toNat ≤ 0x7F := by
  interval_cases n <;> decide

/-- What title-casing can and cannot produce, given the fact about the tables. -/
theorem toTitle_facts (U : UnicodeTables) (hU : U.titleAsciiOnlyIS) (c : Char) :
    (c ∉ replacedChars → toTitle U c ∉ replacedChars)
    ∧ toTitle U c ≠ 'r' ∧ toTitle U c ≠ 'l' ∧ toTitle U c ≠ 'u'
    ∧ (toTitle U c = 'U' → c = 'u' ∨ c = 'U') := by
  by_cases hc : c.toNat ≤ 0x7F
  · have h := (toUpper_facts c.toNat hc).1
    rw [Char.ofNat_toNat] at h
    rw [toTitle_ascii U c hc]
    exact h
  · have ht : toTitle U c = U.toTitle c := by
      unfold toTitle
      rw [if_neg hc]
    rw [ht]
    have hbig : ∀ x : Char, 0x7F < x.toNat →
        x ∉ replacedChars ∧ x ≠ 'r' ∧ x ≠ 'l' ∧ x ≠ 'u' ∧ x ≠ 'U' := by
      intro x hx
      refine ⟨?_, ?_, ?_, ?_, ?_⟩
      · intro hm
        simp only [replacedChars, List.mem_cons, List.mem_singleton, List.not_mem_nil,
          or_false] at hm
        rcases hm with rfl | rfl | rfl | rfl | rfl | rfl | rfl | rfl | rfl <;>
          revert hx <;> decide
      all_goals (rintro rfl; revert hx; decide)
    rcases hU c (by omega) with h | h | h
    · obtain ⟨h1, h2, h3, h4, h5⟩ := hbig _ h
      exact ⟨fun _ => h1, h2, h3, h4, fun h => absurd h h5⟩
    · rw [h]
      exact ⟨fun _ => by decide, by decide, by decide, by decide,
        fun h => absurd h (by decide)⟩
    · rw [h]
      exact ⟨fun _ => by decide, by decide, by decide, by decide,
        fun h => absurd h (by decide)⟩

theorem not_replaced_ne_space (c : Char) (h : c ∉ replacedChars) : (c != ' ') = true := by
  simp only [bne_iff_ne, ne_eq]
  rintro rfl
  exact h (by decide)

/-- One step of title-casing and space removal at a space. -/
theorem titleFilter_space (U : UnicodeTables) (p : Char) (rest : List Char) :
    (titleLoop U p (' ' :: rest)).filter (fun c => c != ' ')
      = (titleLoop U ' ' rest).filter (fun c => c != ' ') := by
  rw [titleLoop_space]
  simp

/-- One step of title-casing and space removal at a rune that is not replaced. -/
theorem titleFilter_cons (U : UnicodeTables) (hU : U.titleAsciiOnlyIS) (p c : Char)
    (rest : List Char) (hc : c ∉ replacedChars) :
    (titleLoop U p (c :: rest)).filter (fun c => c != ' ')
      = (if isSeparator U p then toTitle U c else c)
          :: (titleLoop U c rest).filter (fun c => c != ' ') := by
  have ht : (if isSeparator U p then toTitle U c else c) ∉ replacedChars := by
    by_cases hp : isSeparator U p = true
    · rw [if_pos hp]; exact (toTitle_facts U hU c).1 hc
    · rw [if_neg hp]; exact hc
  rw [titleLoop, List.filter_cons, if_pos (not_replaced_ne_space _ ht)]

/-- If the text after title-casing and space removal starts with 'r' or 'l', that letter
is the first rune of the input and the rune before it is not a separator. -/
theorem titleFilter_head_lower (U : UnicodeTables) (hU : U.titleAsciiOnlyIS) (x : Char)
    (hx : x = 'r' ∨ x = 'l') (s : List Char) :
    ∀ (p : Char) (g : List Char), (∀ c ∈ s, c = ' ' ∨ c ∉ replacedChars) →
      (titleLoop U p s).filter (fun c => c != ' ') = x :: g →
      isSeparator U p = false
        ∧ ∃ rest, s = x :: rest ∧ g = (titleLoop U x rest).filter (fun c => c != ' ') := by
  induction s with
  | nil => intro p g _ h; simp [titleLoop] at h
  | cons c rest ih =>
    intro p g hs h
    have hrest : ∀ c ∈ rest, c = ' ' ∨ c ∉ replacedChars :=
      fun c hc => hs c (List.mem_cons_of_mem _ hc)
    rcases hs c (List.mem_cons_self _ _) with rfl | hc
    · rw [titleFilter_space] at h
      have := (ih ' ' g hrest h).1
      rw [isSeparator_space] at this
      exact absurd this (by decide)
    · rw [titleFilter_cons U hU p c rest hc] at h
      simp only [List.cons.injEq] at h
      obtain ⟨h1, h2⟩ := h
      obtain ⟨_, hr, hl, _, _⟩ := toTitle_facts U hU c
      by_cases hp : isSeparator U p = true
      · rw [if_pos hp] at h1
        rcases hx with rfl | rfl
        · exact absurd h1 hr
        · exact absurd h1 hl
      · rw [if_neg hp] at h1
        subst h1
        exact ⟨by simpa using hp, rest, rfl, h2.symm⟩

theorem titleFilter_head_rl (U : UnicodeTables) (hU : U.titleAsciiOnlyIS) (s : List Char)
    (p : Char) (g : List Char) (hs : ∀ c ∈ s, c = ' ' ∨ c ∉ replacedChars)
    (h : (titleLoop U p s).filter (fun c => c != ' ') = 'r' :: 'l' :: g) :
    ∃ t, s = 'r' :: 'l' :: t := by
  obtain ⟨_, rest, rfl, h2⟩ := titleFilter_head_lower U hU 'r' (Or.inl rfl) s p _ hs h
  obtain ⟨_, rest2, rfl, _⟩ := titleFilter_head_lower U hU 'l' (Or.inr rfl) rest 'r' g
    (fun c hc => hs c (List.mem_cons_of_mem _ hc)) h2.symm
  exact ⟨rest2, rfl⟩

/-- Title-casing and space removal keep a text free of replaced characters and of
"url"/"Url". -/
theorem titleFilter_clean (U : UnicodeTables) (hU : U.titleAsciiOnlyIS) (s : List Char) :
    ∀ p : Char, (∀ c ∈ s, c = ' ' ∨ c ∉ replacedChars) → urlFree s = true →
      (∀ c ∈ (titleLoop U p s).filter (fun c => c != ' '), c ∉ replacedChars)
      ∧ urlFree ((titleLoop U p s).filter (fun c => c != ' ')) = true := by
  induction s with
  | nil => intro p _ _; simp [titleLoop, urlFree]
  | cons c rest ih =>
    intro p hs hfree
    have hrest : ∀ c ∈ rest, c = ' ' ∨ c ∉ replacedChars :=
      fun c hc => hs c (List.mem_cons_of_mem _ hc)
    simp only [urlFree, Bool.and_eq_true, Bool.not_eq_true'] at hfree
    obtain ⟨hstart, hfreeRest⟩ := hfree
    rcases hs c (List.mem_cons_self _ _) with rfl | hc
    · rw [titleFilter_space]
      exact ih ' ' hrest hfreeRest
    · rw [titleFilter_cons U hU p c rest hc]
      obtain ⟨ih1, ih2⟩ := ih c hrest hfreeRest
      obtain ⟨hrep, _, _, hu, hU2⟩ := toTitle_facts U hU c
      constructor
      · intro x hx
        rcases List.mem_cons.mp hx with rfl | hx
        · by_cases hp : isSeparator U p = true
          · rw [if_pos hp]; exact hrep hc
          · rw [if_neg hp]; exact hc
        · exact ih1 x hx
      · simp only [urlFree, ih2, Bool.and_true, Bool.not_eq_true']
        rw [startsUrl_false_iff]
        intro g hg
        obtain ⟨t, ht⟩ := titleFilter_head_rl U hU rest c g hrest hg
        have hcc := (startsUrl_false_iff c rest).mp hstart t ht
        by_cases hp : isSeparator U p = true
        · rw [if_pos hp]
          exact ⟨hu, fun h => by
            rcases hU2 h with h | h
            · exact hcc.1 h
            · exact hcc.2 h⟩
        · rw [if_neg hp]; exact hcc

theorem urlFree_not_infix (s : List Char) (h : urlFree s = true) :
    ¬ (['u', 'r', 'l'] <:+: s) ∧ ¬ (['U', 'r', 'l'] <:+: s) := by
  have key : ∀ (pat : List Char), (pat = ['u', 'r', 'l'] ∨ pat = ['U', 'r', 'l']) →
      ∀ (pre post s : List Char), urlFree s = true → s ≠ pre ++ pat ++ post := by
    intro pat hpat pre
    induction pre with
    | nil =>
      intro post s hs heq
      subst heq
      rcases hpat with rfl | rfl <;> simp [urlFree, startsUrl, List.isPrefixOf] at hs
    | cons c pre ih =>
      intro post s hs heq
      subst heq
      simp only [List.cons_append, urlFree, Bool.and_eq_true] at hs
      exact ih post _ hs.2 (by simp)
  constructor
  · rintro ⟨pre, post, heq⟩
    exact key _ (Or.inl rfl) pre post s h heq.symm
  · rintro ⟨pre, post, heq⟩
    exact key _ (Or.inr rfl) pre post s h heq.symm

theorem goSymRunes_clean (U : UnicodeTables) (hU : U.titleAsciiOnlyIS) (s : List Char) :
    (∀ c ∈ goSymRunes U s, c ∉ replacedChars) ∧ urlFree (goSymRunes U s) = true := by
  rw [goSymRunes_eq]
  exact titleFilter_clean U hU _ ' '
    (fun c hc => (replacerLoop_mem s c hc).imp id (fun h => h.1))
    (replacerLoop_urlFree s)

theorem asciiTables_titleStable : asciiTables.titleStable := by
  refine ⟨fun c hc => Or.inl hc, fun c hc => ?_, fun c _ h => h⟩
  have : ¬ c.toNat ≤ 0x7F := by omega
  simp [toTitle, asciiTables, this]

/-- C20: for every raw name, `goSym(name)` contains none of the characters the replacer
targets (backtick, double quote, dot, underscore, hyphen, space, tab, parentheses) and
contains neither the substring "url" nor the substring "Url".  The title-case table is
the library's: the only ASCII runes it yields for runes above ASCII are 'I' and 'S'. -/
theorem goSym_output_clean (U : UnicodeTables) (hU : U.titleAsciiOnlyIS) (name : String) :
    (∀ c ∈ (goSym U name).data, c ∉ replacedChars)
    ∧ ¬ ("url".data <:+: (goSym U name).data)
    ∧ ¬ ("Url".data <:+: (goSym U name).data) := by
  obtain ⟨h1, h2⟩ := goSymRunes_clean U hU name.data
  exact ⟨h1, urlFree_not_infix _ h2⟩

theorem goSym_output_clean_witness :
    asciiTables.titleAsciiOnlyIS
    ∧ ((∀ c ∈ (goSym asciiTables "u-rl (my_url).x").data, c ∉ replacedChars)
      ∧ ¬ ("url".data <:+: (goSym asciiTables "u-rl (my_url).x").data)
      ∧ ¬ ("Url".data <:+: (goSym asciiTables "u-rl (my_url).x").data)) :=
  ⟨asciiTables_titleStable.1,
    goSym_output_clean asciiTables asciiTables_titleStable.1 "u-rl (my_url).x"⟩



/-! ### Normalising twice -/

theorem isSeparator_ascii (U : UnicodeTables) (c : Char) (h : c.toNat ≤ 0x7F) :
    isSeparator U c = isSeparator asciiTables c := by
  unfold isSeparator
  rw [if_pos h, if_pos h]

theorem toUpper_separator (n : Nat) (hn : n ≤ 0x7F) :
    isSeparator asciiTables (Char.ofNat n) = false →
      isSeparator asciiTables (Char.ofNat n).toUpper = false := by
  interval_cases n <;> decide

theorem toTitle_idempotent (U : UnicodeTables) (hU : U.titleStable) (c : Char) :
    toTitle U (toTitle U c) = toTitle U c := by
  by_cases hc : c.toNat ≤ 0x7F
  · have h := (toUpper_facts c.toNat hc).2
    rw [Char.ofNat_toNat] at h
    rw [toTitle_ascii U c hc, toTitle_ascii U _ h.2, h.1]
  · have ht : toTitle U c = U.toTitle c := by
      unfold toTitle
      rw [if_neg hc]
    rw [ht]
    exact hU.2.1 c (by omega)

theorem toTitle_not_separator (U : UnicodeTables) (hU : U.titleStable) (c : Char)
    (h : isSeparator U c = false) : isSeparator U (toTitle U c) = false := by
  by_cases hc : c.toNat ≤ 0x7F
  · have hup := (toUpper_facts c.toNat hc).2.2
    have hs := toUpper_separator c.toNat hc
    rw [Char.ofNat_toNat] at hup hs
    rw [toTitle_ascii U c hc, isSeparator_ascii U _ hup]
    exact hs (by rw [← isSeparator_ascii U c hc]; exact h)
  · have ht : toTitle U c = U.toTitle c := by
      unfold toTitle
      rw [if_neg hc]
    rw [ht]
    exact hU.2.2 c (by omega) h

/-- Title-casing again the text that title-casing and space removal produced changes
nothing.  `p` is the rune before the rest of the input, `q` the rune before the rest of
the output. -/
theorem titleLoop_titleFilter (U : UnicodeTables) (hU : U.titleStable) (s : List Char) :
    ∀ p q : Char, (∀ c ∈ s, c = ' ' ∨ c ∉ replacedChars) →
      (isSeparator U p = false → isSeparator U q = false) →
      titleLoop U q ((titleLoop U p s).filter (fun c => c != ' '))
        = (titleLoop U p s).filter (fun c => c != ' ') := by
  induction s with
  | nil => intro p q _ _; simp [titleLoop]
  | cons c rest ih =>
    intro p q hs hpq
    have hrest : ∀ c ∈ rest, c = ' ' ∨ c ∉ replacedChars :=
      fun c hc => hs c (List.mem_cons_of_mem _ hc)
    rcases hs c (List.mem_cons_self _ _) with rfl | hc
    · rw [titleFilter_space]
      exact ih ' ' q hrest (fun h => by rw [isSeparator_space] at h; exact absurd h (by decide))
    · rw [titleFilter_cons U hU.1 p c rest hc, titleLoop]
      by_cases hp : isSeparator U p = true
      · rw [if_pos hp]
        have ihc := ih c (toTitle U c) hrest (toTitle_not_separator U hU c)
        rw [ihc]
        by_cases hq : isSeparator U q = true
        · rw [if_pos hq, toTitle_idempotent U hU]
        · rw [if_neg hq]
      · rw [if_neg hp]
        have hq : isSeparator U q = false := hpq (by simpa using hp)
        have ihc := ih c c hrest id
        rw [ihc, hq]
        simp

/-- The replacer copies a text that has no replaced character and no "url"/"Url". -/
theorem replacerLoop_fixed (s : List Char) :
    (∀ c ∈ s, c ∉ replacedChars) → urlFree s = true → replacerLoop replacer 0 s = s := by
  induction s with
  | nil => intro _ _; rfl
  | cons c rest ih =>
    intro hs hfree
    simp only [urlFree, Bool.and_eq_true, Bool.not_eq_true'] at hfree
    rw [replacerLoop_copy c rest (hs c (List.mem_cons_self _ _))
      ((startsUrl_false_iff c rest).mp hfree.1),
      ih (fun c hc => hs c (List.mem_cons_of_mem _ hc)) hfree.2]

theorem goSymRunes_idempotent (U : UnicodeTables) (hU : U.titleStable) (s : List Char) :
    goSymRunes U (goSymRunes U s) = goSymRunes U s := by
  obtain ⟨hchars, hfree⟩ := goSymRunes_clean U hU.1 s
  rw [goSymRunes_eq U (goSymRunes U s), replacerLoop_fixed _ hchars hfree]
  have hfix : titleLoop U ' ' (goSymRunes U s) = goSymRunes U s := by
    rw [goSymRunes_eq]
    exact titleLoop_titleFilter U hU _ ' ' ' '
      (fun c hc => (replacerLoop_mem s c hc).imp id (fun h => h.1)) id
  rw [hfix]
  exact List.filter_eq_self.mpr (fun c hc => not_replaced_ne_space c (hchars c hc))

/-- C17 (as stated, refuted): with the tables that leave every rune above ASCII as it is,
no raw name is normalised differently the second time. -/
theorem goSym_no_name_changes_twice :
    ¬ ∃ x : String, goSym asciiTables (goSym asciiTables x) ≠ goSym asciiTables x := by
  rintro ⟨x, hx⟩
  apply hx
  simp only [goSym]
  rw [goSymRunes_idempotent asciiTables asciiTables_titleStable]

/-- C17 (amended): the Normalizer is idempotent: for every raw name x,
`goSym(goSym(x)) = goSym(x)`.  The title-case table is the library's: it yields no ASCII
rune but 'I' and 'S' for a rune above ASCII, title-casing twice gives the same as once,
and the title case of a rune that is not a separator is not a separator. -/
theorem goSym_idempotent (U : UnicodeTables) (hU : U.titleStable) (x : String) :
    goSym U (goSym U x) = goSym U x := by
  simp only [goSym]
  rw [goSymRunes_idempotent U hU]

theorem goSym_idempotent_witness :
    asciiTables.titleStable
    ∧ goSym asciiTables (goSym asciiTables "u-rl,url.x") = goSym asciiTables "u-rl,url.x" :=
  ⟨asciiTables_titleStable, goSym_idempotent asciiTables asciiTables_titleStable "u-rl,url.x"⟩



/-! ### The specification's reference algorithm -/

theorem specSpaced_cons_replaced (c : Char) (rest : List Char) (h : c ∈ replacedChars) :
    specSpaced (c :: rest) = ' ' :: specSpaced rest := by
  simp [specSpaced, h]

theorem specSpaced_cons_copy (c : Char) (rest : List Char) (h : c ∉ replacedChars) :
    specSpaced (c :: rest) = c :: specSpaced rest := by
  simp [specSpaced, h]

/-- The text after step 1 starts with "rl" only if the name does. -/
theorem specSpaced_head_rl (s g : List Char) (h : specSpaced s = 'r' :: 'l' :: g) :
    ∃ t, s = 'r' :: 'l' :: t := by
  have one : ∀ (x c : Char), x ≠ ' ' →
      (if replacedChars.contains c then ' ' else c) = x → c = x := by
    intro x c hx hc
    by_cases hm : replacedChars.contains c = true
    · rw [if_pos hm] at hc; exact absurd hc.symm hx
    · rw [if_neg hm] at hc; exact hc
  match s, h with
  | [], h => simp [specSpaced] at h
  | [_], h => simp [specSpaced] at h
  | a :: b :: t, h =>
    simp only [specSpaced, List.map_cons, List.cons.injEq] at h
    have ha := one 'r' a (by decide) h.1
    have hb := one 'l' b (by decide) h.2.1
    exact ⟨t, by rw [ha, hb]⟩

/-- The single pass of the replacer does what steps 1 and 2 do one after the other. -/
theorem replacerLoop_eq_spec (s : List Char) :
    replacerLoop replacer 0 s = specAcronym (specSpaced s) := by
  refine replacer_induction (fun s r => r = specAcronym (specSpaced s)) ?_ ?_ ?_ ?_ s
  · simp [specSpaced, specAcronym]
  · intro c rest hc ih
    rw [specSpaced_cons_replaced c rest hc,
      specAcronym.eq_3 ' ' _ (fun _ h _ => absurd h (by decide))
        (fun _ h _ => absurd h (by decide)), ih]
  · intro c t hc ih
    have hr : 'r' ∉ replacedChars := by decide
    have hl : 'l' ∉ replacedChars := by decide
    rcases hc with rfl | rfl
    · rw [specSpaced_cons_copy _ _ (by decide), specSpaced_cons_copy _ _ hr,
        specSpaced_cons_copy _ _ hl, specAcronym.eq_1, ih]
    · rw [specSpaced_cons_copy _ _ (by decide), specSpaced_cons_copy _ _ hr,
        specSpaced_cons_copy _ _ hl, specAcronym.eq_2, ih]
  · intro c rest hc hu ih
    rw [specSpaced_cons_copy c rest hc, specAcronym.eq_3 c _ ?_ ?_, ih]
    · intro g hcu hg
      obtain ⟨t, ht⟩ := specSpaced_head_rl rest g hg
      exact (hu t ht).1 hcu
    · intro g hcu hg
      obtain ⟨t, ht⟩ := specSpaced_head_rl rest g hg
      exact (hu t ht).2 hcu

theorem plainRune_separator (U : UnicodeTables) (c : Char) (hp : plainRune U c = true)
    (hc : c ∉ replacedChars) : isSeparator U c = specWhitespace U c := by
  have hcont : replacedChars.contains c = false := by simpa using hc
  simp only [plainRune, hcont, Bool.false_or] at hp
  by_cases h : c.toNat ≤ 0x7F
  · rw [if_pos h] at hp
    have key : ∀ n : Nat, n ≤ 0x7F → Char.ofNat n ∉ replacedChars →
        (isAsciiLetter (Char.ofNat n) || isAsciiDigit (Char.ofNat n)
          || isAsciiWhitespace (Char.ofNat n)) = true →
        isSeparator asciiTables (Char.ofNat n) = specWhitespace asciiTables (Char.ofNat n) := by
      intro n hn
      interval_cases n <;> decide
    have := key c.toNat h
    rw [Char.ofNat_toNat] at this
    have hw : specWhitespace U c = specWhitespace asciiTables c := by
      simp [specWhitespace, h]
    rw [isSeparator_ascii U c h, hw]
    exact this hc hp
  · rw [if_neg h] at hp
    simp only [isSeparator, specWhitespace, if_neg h]
    cases hL : (U.isLetter c || U.isDigit c) <;> cases hS : U.isSpace c <;> simp_all

/-- Where every rune is a separator exactly when it is whitespace, `strings.Title` is
step 3. -/
theorem titleLoop_eq_spec (U : UnicodeTables) (s : List Char) :
    ∀ p : Char, isSeparator U p = specWhitespace U p →
      (∀ c ∈ s, isSeparator U c = specWhitespace U c) →
      titleLoop U p s = specTitleLoop U (specWhitespace U p) s := by
  induction s with
  | nil => intro p _ _; rfl
  | cons c rest ih =>
    intro p hp hs
    rw [titleLoop, specTitleLoop, hp,
      ih c (hs c (List.mem_cons_self _ _)) (fun x hx => hs x (List.mem_cons_of_mem _ hx))]

theorem goSymRunes_eq_spec (U : UnicodeTables) (s : List Char)
    (h : ∀ c ∈ s, plainRune U c = true) : goSymRunes U s = specGoSym U s := by
  rw [goSymRunes_eq, specGoSym, ← replacerLoop_eq_spec]
  have hsp : isSeparator U ' ' = specWhitespace U ' ' := rfl
  have hws : specWhitespace U ' ' = true := rfl
  rw [titleLoop_eq_spec U _ ' ' hsp, hws]
  intro c hc
  rcases replacerLoop_mem s c hc with rfl | ⟨hnr, hin | hURL⟩
  · exact hsp
  · exact plainRune_separator U c (h c hin) hnr
  · simp only [List.mem_cons, List.mem_singleton, List.not_mem_nil, or_false] at hURL
    rcases hURL with rfl | rfl | rfl <;> rfl

/-- C19 (as stated, refuted): `goSym("a,b")` is "A,B" and `goSym("a/b")` is "A/B", while
the reference algorithm, which starts a word only at the start of the string and after
whitespace, yields "A,b" and "A/b": the letter after the comma or slash is capitalized by
the code. -/
theorem goSym_capitalizes_after_punctuation :
    goSym asciiTables "a,b" = "A,B"
    ∧ specGoSym asciiTables "a,b".data = "A,b".data
    ∧ goSym asciiTables "a/b" = "A/B"
    ∧ specGoSym asciiTables "a/b".data = "A/b".data := by
  decide

/-- C19 (amended): for every raw name whose ASCII characters are all letters, digits,
whitespace or replaced characters (no other ASCII punctuation or control character, such
as a comma, slash or apostrophe; a rune above ASCII is admitted unless the tables class it
both as letter or digit and as space, which the library's tables do for none),
`goSym(name)` equals the specification's reference algorithm: replace the punctuation by
spaces, rewrite "url"/"Url" to "URL", title-case the first character of each
whitespace-separated word only, delete the spaces. -/
theorem goSym_refines_spec (U : UnicodeTables) (name : String)
    (h : ∀ c ∈ name.data, plainRune U c = true) :
    goSym U name = String.mk (specGoSym U name.data) := by
  rw [goSym, goSymRunes_eq_spec U name.data h]

theorem goSym_refines_spec_witness :
    (∀ c ∈ "load_url(file-path) v2".data, plainRune asciiTables c = true)
    ∧ goSym asciiTables "load_url(file-path) v2"
      = String.mk (specGoSym asciiTables "load_url(file-path) v2".data) :=
  ⟨by decide, goSym_refines_spec asciiTables "load_url(file-path) v2" (by decide)⟩



end Json2raw
